import Mathlib

/-!
# Verification of the recurrent sequence-iteration engine (`rnn`)

Shallow embedding of `keras/backend/theano_backend.py`, function `rnn`
(lines 480-572) together with the helpers it relies on
(`expand_dims`, axis reordering via `dimshuffle`, `T.switch`,
`theano.scan`, `T.squeeze`).

Modelling conventions:
* A runtime tensor value is a finitely-branching tree of integer leaves
  (`Tensor`).  Floating-point numbers are modelled as integers: the
  iteration engine only moves, selects and zero-multiplies values, it
  never performs float-sensitive arithmetic.
* `dimshuffle([1, 0, 2, ...])` is an axis permutation; it is modelled by
  an index-based transposition of the two outer axes.
* `T.switch(c, a, b)` is an elementwise conditional select with
  broadcasting of size-1 axes of the condition.
* `theano.scan` is a fold over the leading (time) axis threading the
  carried values; with `go_backwards=True` it traverses the sequences in
  reverse order but still stacks the results in loop order.  When it is
  given a single `outputs_info` entry it returns the stacked tensor
  itself rather than a one-element list (the "Theano API inconsistency"
  handled by the source).  On the first invocation of the inner step
  function it validates that the number of returned values matches the
  number of `outputs_info` entries.
* `T.squeeze` removes *statically broadcastable* axes.  The runtime
  values modelled here carry no static broadcast flags (the source even
  calls `T.unbroadcast` on the seed output to strip them), so `T.squeeze`
  acts as the identity, and `T.unbroadcast` is not represented.
-/

namespace KerasRnn

/-- A runtime tensor value: an integer leaf (rank 0) or a list of
subtensors along the outermost axis. -/
inductive Tensor where
  | scalar : Int → Tensor
  | node : List Tensor → Tensor

instance : Inhabited Tensor := ⟨Tensor.scalar 0⟩

/-- The subtensors along the outermost axis (`x[i]` enumerates these). -/
def Tensor.children : Tensor → List Tensor
  | .scalar _ => []
  | .node ts => ts

/-- Static rank of a tensor (`x.ndim` in Theano), read off the first
child chain. -/
def Tensor.ndim : Tensor → Nat
  | .scalar _ => 0
  | .node [] => 1
  | .node (t :: _) => 1 + t.ndim

mutual
/-- `shapeIs t s` holds when `t` is a rectangular tensor of shape `s`. -/
def shapeIs : Tensor → List Nat → Bool
  | .scalar _, [] => true
  | .node ts, n :: s => ts.length == n && shapeAll ts s
  | _, _ => false

/-- All tensors in the list have shape `s`. -/
def shapeAll : List Tensor → List Nat → Bool
  | [], _ => true
  | t :: ts, s => shapeIs t s && shapeAll ts s
end

/-- Pointwise shapes of a list of tensors (used for state lists). -/
def shapesAre : List Tensor → List (List Nat) → Bool
  | [], [] => true
  | t :: ts, s :: ss => shapeIs t s && shapesAre ts ss
  | _, _ => false

mutual
/-- Every leaf of the tensor satisfies `p`. -/
def leavesAll (p : Int → Bool) : Tensor → Bool
  | .scalar v => p v
  | .node ts => leavesAllList p ts

def leavesAllList (p : Int → Bool) : List Tensor → Bool
  | [] => true
  | t :: ts => leavesAll p t && leavesAllList p ts
end

mutual
/-- Multiplication of every leaf by zero (`x * 0` in the source: it
produces the all-zero tensor of the same shape). -/
def tzeroLike : Tensor → Tensor
  | .scalar v => .scalar (v * 0)
  | .node ts => .node (tzeroLikeList ts)

def tzeroLikeList : List Tensor → List Tensor
  | [] => []
  | t :: ts => tzeroLike t :: tzeroLikeList ts
end

mutual
/-- `expand_dims(x, dim=-1)` from the source: insert a trailing 1-sized
axis (for `dim = -1` the insertion position works out to `x.ndim`, and
to `0` for a rank-0 tensor, which is the same thing). -/
def expandDimsLast : Tensor → Tensor
  | .scalar v => .node [.scalar v]
  | .node ts => .node (expandDimsLastList ts)

def expandDimsLastList : List Tensor → List Tensor
  | [] => []
  | t :: ts => expandDimsLast t :: expandDimsLastList ts
end

/-- Transpose of a list-of-lists matrix of tensors, by indices: row `s`
of the result collects entry `s` of every input row.  The width is read
from the first row, matching an axis permutation of a rectangular
tensor. -/
def transposeL (M : List (List Tensor)) : List (List Tensor) :=
  (List.range (M.headD []).length).map fun s => M.map fun r => r.getD s default

/-- `x.dimshuffle([1, 0, 2, ..., ndim-1])`: swap the two outermost axes
(batch-major to time-major and back).  Pure axis permutation. -/
def transpose01 (t : Tensor) : Tensor :=
  match t with
  | .node rows => .node ((transposeL (rows.map Tensor.children)).map Tensor.node)
  | t => t

/-- `T.squeeze`: removes statically broadcastable axes.  Runtime values
here carry no static broadcast flags, so it is the identity (see the
module comment). -/
def tsqueeze (t : Tensor) : Tensor := t

mutual
/-- `T.switch(m, a, b)`: elementwise conditional select (nonzero mask
entry picks `a`, zero picks `b`), broadcasting a 1-sized axis of the
mask across the corresponding axis of the values, and a scalar mask
across whole subtrees. -/
def tswitch : Tensor → Tensor → Tensor → Tensor
  | .scalar m, a, b => if m = 0 then b else a
  | .node [m0], .node as, .node bs => .node (tswitchMap m0 as bs)
  | .node ms, .node as, .node bs => .node (tswitchZip ms as bs)
  | _, a, _ => a
termination_by structural _ a _ => a

/-- Broadcast case: the single mask subtensor is applied across all
pairs of value subtensors. -/
def tswitchMap (m : Tensor) : List Tensor → List Tensor → List Tensor
  | a :: as, b :: bs => tswitch m a b :: tswitchMap m as bs
  | _, _ => []
termination_by structural as _ => as

/-- Aligned case: masks and values are zipped positionally. -/
def tswitchZip : List Tensor → List Tensor → List Tensor → List Tensor
  | m :: ms, a :: as, b :: bs => tswitch m a b :: tswitchZip ms as bs
  | _, _, _ => []
termination_by structural _ as _ => as
end

/-- Shape-level compatibility for `tswitch`'s broadcasting: each mask
axis is either 1-sized (broadcast) or equal to the value axis; the mask
may be shallower than the value (a scalar mask selects whole
subtrees). -/
def bcastOk : List Nat → List Nat → Bool
  | [], _ => true
  | 1 :: ms, _ :: as => bcastOk ms as
  | m :: ms, a :: as => m == a && bcastOk ms as
  | _ :: _, [] => false

/-- The error kinds of the engine, per the backend's failure modes:
shape assertions (`InvalidShape`) and the scan's arity validation of the
step function's return (`InvalidArgument`). -/
inductive RnnError where
  | invalidShape : RnnError
  | invalidArgument : RnnError

/-- The result triple `(last_output, outputs, new_states)` returned by
`rnn`. -/
structure RnnResult where
  last_output : Tensor
  outputs : Tensor
  states : List Tensor

/-- A step function: `(input_slice, state_list) ->
(output_slice, new_state_list)`. -/
def StepFun : Type := Tensor → List Tensor → Tensor × List Tensor

/-- The inner function `_step` of the masked branch (source lines
533-540): run the step function, then retain the previous output where
the mask is zero, and likewise retain each previous state.  Note the
`zip(states, new_states)`, which truncates to the shorter list. -/
def maskedStep (stepf : StepFun) (input mask output_tm1 : Tensor)
    (states : List Tensor) : Tensor × List Tensor :=
  let r := stepf input states
  let output := tswitch mask r.1 output_tm1
  let return_states := List.zipWith (fun state new_state => tswitch mask new_state state) states r.2
  (output, return_states)

/-- The iteration of `theano.scan` for the masked branch: fold over the
time-major input and mask slices, threading `(output_tm1, states)`, and
stack every step's `(output, states)` in loop order. -/
def scanMaskedAux (stepf : StepFun) :
    List Tensor → List Tensor → Tensor → List Tensor → List (Tensor × List Tensor)
  | x :: xs, m :: ms, output_tm1, states =>
      let r := maskedStep stepf x m output_tm1 states
      r :: scanMaskedAux stepf xs ms r.1 r.2
  | _, _, _, _ => []

/-- `theano.scan` call of the masked branch (source lines 542-546):
validates, on the first invocation of `_step`, that the number of values
it returns matches the number of `outputs_info` entries
(`1 + len(initial_states)`), then iterates. -/
def rnnMaskedScan (stepf : StepFun) (xs ms : List Tensor) (output0 : Tensor)
    (states : List Tensor) : Except RnnError (List (Tensor × List Tensor)) :=
  match xs, ms with
  | x :: _, m :: _ =>
      if (maskedStep stepf x m output0 states).2.length = states.length then
        .ok (scanMaskedAux stepf xs ms output0 states)
      else .error .invalidArgument
  | _, _ => .ok []

/-- The inner function `_step` of the unmasked branch (source lines
548-550): just the step function, returning `[output] + new_states`. -/
def scanUnmaskedAux (stepf : StepFun) :
    List Tensor → List Tensor → List (Tensor × List Tensor)
  | x :: xs, states =>
      let r := stepf x states
      r :: scanUnmaskedAux stepf xs r.2
  | [], _ => []

/-- `theano.scan` call of the unmasked branch (source lines 552-556),
with `outputs_info = [None] + initial_states`: the output is not fed
back, the states are; same first-invocation arity validation. -/
def rnnUnmaskedScan (stepf : StepFun) (xs : List Tensor)
    (states : List Tensor) : Except RnnError (List (Tensor × List Tensor)) :=
  match xs with
  | x :: _ =>
      if (stepf x states).2.length = states.length then
        .ok (scanUnmaskedAux stepf xs states)
      else .error .invalidArgument
  | [] => .ok []

/-- What `theano.scan` hands back: a bare stacked tensor when there is a
single `outputs_info` entry, a list of stacked tensors otherwise (the
"Theano API inconsistency" of source line 558). -/
inductive ScanResult where
  | single : Tensor → ScanResult
  | multi : List Tensor → ScanResult

/-- Stack the per-step results along a new leading (time) axis: one
outputs tensor followed by one stacked tensor per state slot. -/
def stackResults (nstates : Nat) (results : List (Tensor × List Tensor)) :
    List Tensor :=
  Tensor.node (results.map Prod.fst) ::
    (List.range nstates).map fun i =>
      Tensor.node (results.map fun r => r.2.getD i default)

/-- The shape of `theano.scan`'s return value. -/
def scanReturn (stacked : List Tensor) : ScanResult :=
  match stacked with
  | [t] => .single t
  | l => .multi l

/-- The output assembly of source lines 558-572: normalize the scan
result (`if type(results) is list`), squeeze the outputs, take
`last_output = outputs[-1]`, restore batch-major layout with
`dimshuffle`, and take the last slice of every stacked state. -/
def assemble (sr : ScanResult) : RnnResult :=
  let p : Tensor × List Tensor :=
    match sr with
    | .multi l => (l.headD default, l.tail)
    | .single t => (t, [])
  let outputs := tsqueeze p.1
  let last_output := outputs.children.getLastD default
  let outputsB := transpose01 outputs
  let statesF := p.2.map fun state => tsqueeze (state.children.getLastD default)
  ⟨last_output, outputsB, statesF⟩

/-- The mask normalization of source lines 523-525: a mask whose rank is
one less than the input's gets a trailing 1-sized axis via
`expand_dims`; then `assert mask.ndim == ndim`. -/
def normalizeMask (nd : Nat) (mask : Tensor) : Except RnnError Tensor :=
  let mask1 := if mask.ndim = nd - 1 then expandDimsLast mask else mask
  if mask1.ndim = nd then .ok mask1 else .error .invalidShape

/-- `rnn(step_function, inputs, initial_states, go_backwards, mask)`
from source lines 480-572: iterate a step function over the time axis of
a batch-major input tensor, carrying a state list, with optional masked
retention and optional reversed traversal. -/
def rnn (stepf : StepFun) (inputs : Tensor) (initial_states : List Tensor)
    (go_backwards : Bool) (mask : Option Tensor) :
    Except RnnError RnnResult :=
  -- assert ndim >= 3
  if inputs.ndim < 3 then .error .invalidShape else
  -- inputs = inputs.dimshuffle([1, 0, ...])
  let xs := (transpose01 inputs).children
  let scanned : Except RnnError (List (Tensor × List Tensor)) :=
    match mask with
    | some mask0 =>
        match normalizeMask inputs.ndim mask0 with
        | .error e => .error e
        | .ok mask1 =>
            -- mask = mask.dimshuffle([1, 0, ...])
            let ms := (transpose01 mask1).children
            -- initial_output = step_function(inputs[0], initial_states)[0] * 0
            -- (the subsequent T.unbroadcast only strips static broadcast
            -- flags, which runtime values here do not carry)
            let initialOutput :=
              tzeroLike (stepf (xs.headD default) initial_states).1
            rnnMaskedScan stepf
              (if go_backwards then xs.reverse else xs)
              (if go_backwards then ms.reverse else ms)
              initialOutput initial_states
    | none =>
        rnnUnmaskedScan stepf
          (if go_backwards then xs.reverse else xs) initial_states
  match scanned with
  | .error e => .error e
  | .ok results =>
      .ok (assemble (scanReturn (stackResults initial_states.length results)))

/-- `outputs[:, -1, ...]`: the slice of a batch-major outputs tensor at
the final loop-order time index. -/
def lastColumn (t : Tensor) : Tensor :=
  .node (t.children.map fun r => r.children.getLastD default)

/-- `outputs[:, t, ...]`: the slice of a batch-major outputs tensor at
loop-order time index `t`. -/
def timeColumn (t : Nat) (outputs : Tensor) : Tensor :=
  .node (outputs.children.map fun r => r.children.getD t default)

/-- The loop-order `(output, states)` records of a masked run: the
sequences, seed output and initial states exactly as `rnn` hands them to
the masked scan (`mask1` is the already-normalized mask). -/
def rnnMaskedResults (stepf : StepFun) (inputs mask1 : Tensor)
    (sts : List Tensor) (gb : Bool) : List (Tensor × List Tensor) :=
  scanMaskedAux stepf
    (if gb then (transpose01 inputs).children.reverse
     else (transpose01 inputs).children)
    (if gb then (transpose01 mask1).children.reverse
     else (transpose01 mask1).children)
    (tzeroLike (stepf ((transpose01 inputs).children.headD default) sts).1)
    sts

/-- The loop-order `(output, states)` records of an unmasked run: the
sequences and initial states exactly as `rnn` hands them to the
unmasked scan. -/
def rnnUnmaskedResults (stepf : StepFun) (inputs : Tensor)
    (sts : List Tensor) (gb : Bool) : List (Tensor × List Tensor) :=
  scanUnmaskedAux stepf
    (if gb then (transpose01 inputs).children.reverse
     else (transpose01 inputs).children) sts

/-- The hypotheses the step function contract (spec section 3) imposes,
restricted to the time slices actually visited: on state lists of the
right shapes it produces an output of shape `oS` and states of shapes
`stS`. -/
def StepOk (stepf : StepFun) (xs : List Tensor) (oS : List Nat)
    (stS : List (List Nat)) : Prop :=
  ∀ x ∈ xs, ∀ ss, shapesAre ss stS = true →
    shapeIs (stepf x ss).1 oS = true ∧ shapesAre (stepf x ss).2 stS = true

/-! ## Concrete fixtures used by the witness runs -/

/-- The identity step function: output = input slice, states unchanged. -/
def idStepFun : StepFun := fun x ss => (x, ss)

/-- A step function returning twice as many states as it was given. -/
def extraStepFun : StepFun := fun x ss => (x, ss ++ ss)

/-- A `(1, 1)`-shaped tensor holding a single value. -/
def cellT (v : Int) : Tensor := .node [.node [.scalar v]]

/-- Batch-major input of shape `(1, 2, 1)` with values 1, 2. -/
def input12 : Tensor := .node [.node [.node [.scalar 1], .node [.scalar 2]]]

/-- Batch-major input of shape `(1, 3, 1)` with values 1, 2, 3. -/
def input123 : Tensor :=
  .node [.node [.node [.scalar 1], .node [.scalar 2], .node [.scalar 3]]]

/-- A rank-2 tensor (used to exercise the rank check). -/
def input2d : Tensor := .node [.node [.scalar 1]]

/-- Mask of shape `(1, 2)`, all ones. -/
def mask11 : Tensor := .node [.node [.scalar 1, .scalar 1]]

/-- Mask of shape `(1, 2, 1)`, all ones (the normalized form of
`mask11`). -/
def mask11x : Tensor := .node [.node [.node [.scalar 1], .node [.scalar 1]]]

/-- Mask of shape `(1, 2)`: keep the first step, freeze the second. -/
def mask10 : Tensor := .node [.node [.scalar 1, .scalar 0]]

/-- Normalized form of `mask10`. -/
def mask10x : Tensor := .node [.node [.node [.scalar 1], .node [.scalar 0]]]

/-- Mask of shape `(1, 2)`, all zeros. -/
def mask00 : Tensor := .node [.node [.scalar 0, .scalar 0]]

/-- Normalized form of `mask00`. -/
def mask00x : Tensor := .node [.node [.node [.scalar 0], .node [.scalar 0]]]

/-- A rank-1 mask (wrong rank for a rank-3 input). -/
def maskR1 : Tensor := .node [.scalar 1]

/-! ## Shape lemmas -/

theorem shapeAll_iff {ts : List Tensor} {s : List Nat} :
    shapeAll ts s = true ↔ ∀ t ∈ ts, shapeIs t s = true := by
  induction ts with
  | nil => simp [shapeAll]
  | cons t ts ih => simp [shapeAll, ih]

theorem shapeIs_node_iff {ts : List Tensor} {n : Nat} {s : List Nat} :
    shapeIs (.node ts) (n :: s) = true ↔
      ts.length = n ∧ ∀ t ∈ ts, shapeIs t s = true := by
  simp [shapeIs, shapeAll_iff]

theorem shapeIs_nil_iff {t : Tensor} :
    shapeIs t [] = true ↔ ∃ v, t = .scalar v := by
  cases t <;> simp [shapeIs]

theorem shapeIs_cons_node {t : Tensor} {n : Nat} {s : List Nat}
    (h : shapeIs t (n :: s) = true) : ∃ ts, t = .node ts := by
  cases t with
  | scalar v => simp [shapeIs] at h
  | node ts => exact ⟨ts, rfl⟩

theorem children_of_shapeIs {t : Tensor} {n : Nat} {s : List Nat}
    (h : shapeIs t (n :: s) = true) :
    t.children.length = n ∧ ∀ c ∈ t.children, shapeIs c s = true := by
  rcases shapeIs_cons_node h with ⟨ts, rfl⟩
  exact shapeIs_node_iff.mp h

theorem ndim_of_shapeIs :
    ∀ {s : List Nat} {t : Tensor}, shapeIs t s = true →
      (∀ d ∈ s, 0 < d) → t.ndim = s.length
  | [], t, h, _ => by
      rcases shapeIs_nil_iff.mp h with ⟨v, rfl⟩
      rfl
  | n :: s, t, h, hpos => by
      rcases shapeIs_cons_node h with ⟨ts, rfl⟩
      rcases shapeIs_node_iff.mp h with ⟨hlen, hall⟩
      cases ts with
      | nil =>
          exact absurd (hlen ▸ hpos n (List.mem_cons_self n s)) (by simp)
      | cons t0 ts =>
          have ih := ndim_of_shapeIs (hall t0 (List.mem_cons_self t0 ts))
            (fun d hd => hpos d (List.mem_cons_of_mem n hd))
          simp [Tensor.ndim, ih, Nat.add_comm]

theorem shapesAre_length : ∀ {ts : List Tensor} {ss : List (List Nat)},
    shapesAre ts ss = true → ts.length = ss.length
  | [], [], _ => rfl
  | [], _ :: _, h => by simp [shapesAre] at h
  | _ :: _, [], h => by simp [shapesAre] at h
  | t :: ts, s :: ss, h => by
      simp only [shapesAre, Bool.and_eq_true] at h
      simp [shapesAre_length h.2]

theorem shapesAre_getD : ∀ {ts : List Tensor} {ss : List (List Nat)},
    shapesAre ts ss = true → ∀ i, i < ts.length →
      shapeIs (ts.getD i default) (ss.getD i []) = true
  | t :: ts, s :: ss, h, i, hi => by
      simp only [shapesAre, Bool.and_eq_true] at h
      cases i with
      | zero => simpa using h.1
      | succ i => simpa using shapesAre_getD h.2 i (by simpa using hi)
  | [], _, _, i, hi => by simp at hi
  | _ :: _, [], h, _, _ => by simp [shapesAre] at h

theorem shapesAre_iff_getD {ts : List Tensor} {ss : List (List Nat)} :
    shapesAre ts ss = true ↔
      ts.length = ss.length ∧ ∀ i, i < ts.length →
        shapeIs (ts.getD i default) (ss.getD i []) = true := by
  constructor
  · exact fun h => ⟨shapesAre_length h, shapesAre_getD h⟩
  · intro ⟨hl, hp⟩
    induction ts generalizing ss with
    | nil => cases ss with
      | nil => rfl
      | cons s ss => simp at hl
    | cons t ts ih =>
        cases ss with
        | nil => simp at hl
        | cons s ss =>
            simp only [shapesAre, Bool.and_eq_true]
            refine ⟨by simpa using hp 0 (by simp), ih (by simpa using hl) ?_⟩
            intro i hi
            simpa using hp (i + 1) (by simpa using hi)

/-! ## Leaf predicates -/

theorem leavesAllList_iff {p : Int → Bool} {ts : List Tensor} :
    leavesAllList p ts = true ↔ ∀ t ∈ ts, leavesAll p t = true := by
  induction ts with
  | nil => simp [leavesAllList]
  | cons t ts ih => simp [leavesAllList, ih]

theorem leavesAll_node_iff {p : Int → Bool} {ts : List Tensor} :
    leavesAll p (.node ts) = true ↔ ∀ t ∈ ts, leavesAll p t = true := by
  simp [leavesAll, leavesAllList_iff]

/-! ## Zero-multiplication (`x * 0`) lemmas -/

theorem tzeroLikeList_length : ∀ ts : List Tensor,
    (tzeroLikeList ts).length = ts.length
  | [] => rfl
  | t :: ts => by simp [tzeroLikeList, tzeroLikeList_length ts]

mutual
theorem shapeIs_tzeroLike : ∀ (t : Tensor) (s : List Nat),
    shapeIs (tzeroLike t) s = shapeIs t s
  | .scalar v, s => by cases s <;> rfl
  | .node ts, [] => rfl
  | .node ts, n :: s => by
      simp [tzeroLike, shapeIs, tzeroLikeList_length, shapeAll_tzeroLike ts s]

theorem shapeAll_tzeroLike : ∀ (ts : List Tensor) (s : List Nat),
    shapeAll (tzeroLikeList ts) s = shapeAll ts s
  | [], _ => rfl
  | t :: ts, s => by
      simp [tzeroLikeList, shapeAll, shapeIs_tzeroLike t s,
        shapeAll_tzeroLike ts s]
end

mutual
theorem leavesAll_tzeroLike : ∀ t : Tensor,
    leavesAll (fun v => v == 0) (tzeroLike t) = true
  | .scalar v => by simp [tzeroLike, leavesAll]
  | .node ts => by simp [tzeroLike, leavesAll, leavesAllList_tzeroLike ts]

theorem leavesAllList_tzeroLike : ∀ ts : List Tensor,
    leavesAllList (fun v => v == 0) (tzeroLikeList ts) = true
  | [] => rfl
  | t :: ts => by
      simp [tzeroLikeList, leavesAllList, leavesAll_tzeroLike t,
        leavesAllList_tzeroLike ts]
end

/-! ## `expand_dims` lemmas -/

theorem expandDimsLastList_length : ∀ ts : List Tensor,
    (expandDimsLastList ts).length = ts.length
  | [] => rfl
  | t :: ts => by simp [expandDimsLastList, expandDimsLastList_length ts]

mutual
theorem shapeIs_expandDimsLast : ∀ (t : Tensor) (s : List Nat),
    shapeIs t s = true → shapeIs (expandDimsLast t) (s ++ [1]) = true
  | .scalar v, [], _ => by simp [expandDimsLast, shapeIs, shapeAll]
  | .scalar v, _ :: _, h => by simp [shapeIs] at h
  | .node ts, [], h => by simp [shapeIs] at h
  | .node ts, n :: s, h => by
      simp only [shapeIs, Bool.and_eq_true, beq_iff_eq] at h
      simp only [expandDimsLast, List.cons_append, shapeIs, Bool.and_eq_true,
        beq_iff_eq]
      exact ⟨by simp [expandDimsLastList_length, h.1],
        shapeAll_expandDimsLast ts s h.2⟩

theorem shapeAll_expandDimsLast : ∀ (ts : List Tensor) (s : List Nat),
    shapeAll ts s = true → shapeAll (expandDimsLastList ts) (s ++ [1]) = true
  | [], _, _ => rfl
  | t :: ts, s, h => by
      simp only [shapeAll, Bool.and_eq_true] at h
      simp only [expandDimsLastList, shapeAll, Bool.and_eq_true]
      exact ⟨shapeIs_expandDimsLast t s h.1, shapeAll_expandDimsLast ts s h.2⟩
end

mutual
theorem leavesAll_expandDimsLast : ∀ (p : Int → Bool) (t : Tensor),
    leavesAll p (expandDimsLast t) = leavesAll p t
  | p, .scalar v => by simp [expandDimsLast, leavesAll, leavesAllList]
  | p, .node ts => by
      simp [expandDimsLast, leavesAll, leavesAllList_expandDimsLast p ts]

theorem leavesAllList_expandDimsLast : ∀ (p : Int → Bool) (ts : List Tensor),
    leavesAllList p (expandDimsLastList ts) = leavesAllList p ts
  | _, [] => rfl
  | p, t :: ts => by
      simp [expandDimsLastList, leavesAllList, leavesAll_expandDimsLast p t,
        leavesAllList_expandDimsLast p ts]
end

/-! ## Small list helpers -/

theorem getD_mem {α : Type _} {l : List α} {i : Nat} (d : α) (h : i < l.length) :
    l.getD i d ∈ l := by
  rw [List.getD_eq_getElem?_getD, List.getElem?_eq_getElem h]
  exact List.getElem_mem h

theorem headD_mem {α : Type _} {l : List α} (d : α) (h : l ≠ []) :
    l.headD d ∈ l := by
  cases l with
  | nil => exact absurd rfl h
  | cons a l => simp

theorem range_map_getD {α : Type _} (l : List α) (d : α) :
    (List.range l.length).map (fun i => l.getD i d) = l := by
  apply List.ext_getElem
  · simp
  · intro i h1 h2
    simp [List.getD_eq_getElem?_getD, List.getElem?_eq_getElem h2]

theorem getLastD_map {α β : Type _} (f : α → β) :
    ∀ (l : List α) (a0 : α) (b0 : β), l ≠ [] →
      (l.map f).getLastD b0 = f (l.getLastD a0)
  | [], _, _, h => absurd rfl h
  | [a], _, _, _ => rfl
  | a :: b :: l, a0, b0, _ => by
      have ih := getLastD_map f (b :: l) a (f a) (by simp)
      simpa [List.getLastD_cons] using ih

theorem getD_map {α β : Type _} (f : α → β) (l : List α) (i : Nat) (d : α)
    (h : i < l.length) : (l.map f).getD i (f d) = f (l.getD i d) := by
  rw [List.getD_eq_getElem?_getD, List.getD_eq_getElem?_getD,
    List.getElem?_eq_getElem h,
    List.getElem?_eq_getElem (by simpa using h)]
  simp

/-! ## Transposition (`dimshuffle([1,0,...])`) lemmas -/

theorem transposeL_length (M : List (List Tensor)) :
    (transposeL M).length = (M.headD []).length := by
  simp [transposeL]

theorem mem_transposeL {M : List (List Tensor)} {l : List Tensor}
    (h : l ∈ transposeL M) :
    ∃ s, s < (M.headD []).length ∧ l = M.map fun r => r.getD s default := by
  simp only [transposeL, List.mem_map, List.mem_range] at h
  rcases h with ⟨s, hs, rfl⟩
  exact ⟨s, hs, rfl⟩

theorem transposeL_getElem (M : List (List Tensor)) (s : Nat)
    (h : s < (transposeL M).length) :
    (transposeL M)[s] = M.map fun r => r.getD s default := by
  simp [transposeL]

theorem shapeIs_transpose01 {t : Tensor} {a b : Nat} {s : List Nat}
    (h : shapeIs t (a :: b :: s) = true) (ha : 0 < a) :
    shapeIs (transpose01 t) (b :: a :: s) = true := by
  rcases shapeIs_cons_node h with ⟨rows, rfl⟩
  rcases shapeIs_node_iff.mp h with ⟨hlen, hall⟩
  have hrowlen : ∀ r ∈ rows, r.children.length = b := fun r hr =>
    (children_of_shapeIs (hall r hr)).1
  have hrowsh : ∀ r ∈ rows, ∀ c ∈ r.children, shapeIs c s = true := fun r hr =>
    (children_of_shapeIs (hall r hr)).2
  have hM : ((rows.map Tensor.children).headD []).length = b := by
    cases rows with
    | nil => exact absurd (hlen ▸ ha) (by simp)
    | cons r rows => simpa using hrowlen r (by simp)
  rw [transpose01]
  apply shapeIs_node_iff.mpr
  constructor
  · simpa [transposeL_length] using hM
  · intro u hu
    rcases List.mem_map.mp hu with ⟨l, hl, rfl⟩
    rcases mem_transposeL hl with ⟨s0, hs0, rfl⟩
    apply shapeIs_node_iff.mpr
    constructor
    · simp [hlen]
    · intro c hc
      rcases List.mem_map.mp hc with ⟨r, hr, rfl⟩
      rcases List.mem_map.mp hr with ⟨row, hrow, rfl⟩
      have hb : s0 < row.children.length := by
        rw [hrowlen row hrow]; exact hM ▸ hs0
      exact hrowsh row hrow _ (getD_mem default hb)

theorem transpose01_children {t : Tensor} {a b : Nat} {s : List Nat}
    (h : shapeIs t (a :: b :: s) = true) (ha : 0 < a) :
    (transpose01 t).children.length = b ∧
      ∀ sl ∈ (transpose01 t).children, shapeIs sl (a :: s) = true :=
  children_of_shapeIs (shapeIs_transpose01 h ha)

theorem leavesAll_transpose01_children {p : Int → Bool} {t : Tensor}
    {a b : Nat} {s : List Nat} (h : shapeIs t (a :: b :: s) = true)
    (hp : leavesAll p t = true) :
    ∀ sl ∈ (transpose01 t).children, leavesAll p sl = true := by
  rcases shapeIs_cons_node h with ⟨rows, rfl⟩
  rcases shapeIs_node_iff.mp h with ⟨hlen, hall⟩
  intro sl hsl
  rw [transpose01] at hsl
  simp only [Tensor.children, List.mem_map] at hsl
  rcases hsl with ⟨l, hl, rfl⟩
  rcases mem_transposeL hl with ⟨s0, hs0, rfl⟩
  apply leavesAll_node_iff.mpr
  intro c hc
  rcases List.mem_map.mp hc with ⟨r, hr, rfl⟩
  rcases List.mem_map.mp hr with ⟨row, hrow, rfl⟩
  have hM : ((rows.map Tensor.children).headD []).length = b := by
    cases rows with
    | nil => exact absurd hl (by simp [transposeL])
    | cons r0 rows => simpa using (children_of_shapeIs (hall r0 (by simp))).1
  have hb : s0 < row.children.length := by
    rw [(children_of_shapeIs (hall row hrow)).1]; exact hM ▸ hs0
  have hrowp : leavesAll p row = true := (leavesAll_node_iff.mp hp) row hrow
  rcases shapeIs_cons_node (hall row hrow) with ⟨cs, rfl⟩
  exact (leavesAll_node_iff.mp hrowp) _ (getD_mem default hb)

theorem lastColumn_transpose01 {slices : List Tensor} {a : Nat} {s : List Nat}
    (hne : slices ≠ []) (hsh : ∀ sl ∈ slices, shapeIs sl (a :: s) = true) :
    lastColumn (transpose01 (.node slices)) = slices.getLastD default := by
  have hlast : slices.getLastD default ∈ slices := by
    cases slices with
    | nil => exact absurd rfl hne
    | cons x l =>
        rw [List.getLastD_cons]
        exact List.getLastD_mem_cons l x
  rcases shapeIs_cons_node (hsh _ hlast) with ⟨cs, hcs⟩
  have hcslen : cs.length = a := by
    have := (children_of_shapeIs (hsh _ hlast)).1
    rwa [hcs] at this
  have hMne : slices.map Tensor.children ≠ [] := by
    cases slices with
    | nil => exact absurd rfl hne
    | cons x l => simp
  have hwidth : ((slices.map Tensor.children).headD []).length = a := by
    cases slices with
    | nil => exact absurd rfl hne
    | cons x l => simpa using (children_of_shapeIs (hsh x (by simp))).1
  have hrow : ∀ s0,
      ((slices.map Tensor.children).map (fun r => r.getD s0 default)).getLastD
        default = cs.getD s0 default := by
    intro s0
    rw [getLastD_map _ _ [] _ hMne,
      getLastD_map Tensor.children _ default _ hne, hcs]
    rfl
  rw [hcs]
  show Tensor.node
      (((transposeL (slices.map Tensor.children)).map Tensor.node).map
        fun r => r.children.getLastD default) = Tensor.node cs
  congr 1
  apply List.ext_getElem
  · rw [List.length_map, List.length_map, transposeL_length, hwidth, hcslen]
  · intro i h1 h2
    have hi : i < a := by rwa [hcslen] at h2
    simp only [List.getElem_map, Tensor.children]
    rw [transposeL_getElem _ i
      (by rw [transposeL_length, hwidth]; exact hi)]
    rw [hrow i, List.getD_eq_getElem?_getD, List.getElem?_eq_getElem h2]
    rfl

/-! ## `T.switch` lemmas -/

theorem tswitch_scalar (m : Int) (a b : Tensor) :
    tswitch (.scalar m) a b = if m = 0 then b else a := by
  cases a <;> cases b <;> rfl

/-- `T.switch` preserves the shape of its value arguments whenever the
mask's shape broadcasts over them. -/
theorem tswitch_shapeIs : ∀ {sm s : List Nat} {m a b : Tensor},
    shapeIs m sm = true → shapeIs a s = true → shapeIs b s = true →
    bcastOk sm s = true → shapeIs (tswitch m a b) s = true
  | [], s, m, a, b, hm, ha, hb, _ => by
      rcases shapeIs_nil_iff.mp hm with ⟨v, rfl⟩
      rw [tswitch_scalar]
      split <;> assumption
  | n :: sm, s, m, a, b, hm, ha, hb, hbc => by
      rcases shapeIs_cons_node hm with ⟨ms, rfl⟩
      rcases shapeIs_node_iff.mp hm with ⟨hmlen, hmall⟩
      subst hmlen
      cases s with
      | nil => simp [bcastOk] at hbc
      | cons k s =>
          rcases shapeIs_cons_node ha with ⟨as, rfl⟩
          rcases shapeIs_node_iff.mp ha with ⟨halen, haall⟩
          rcases shapeIs_cons_node hb with ⟨bs, rfl⟩
          rcases shapeIs_node_iff.mp hb with ⟨hblen, hball⟩
          cases ms with
          | nil =>
              simp only [List.length_nil, bcastOk, Bool.and_eq_true,
                beq_iff_eq] at hbc
              rcases hbc with ⟨hk, _⟩
              have : as = [] := List.length_eq_zero.mp (by omega)
              subst this
              have : bs = [] := List.length_eq_zero.mp (by omega)
              subst this
              show shapeIs (.node (tswitchZip [] [] [])) (k :: s) = true
              apply shapeIs_node_iff.mpr
              simp [tswitchZip, hk.symm]
          | cons m0 ms =>
              cases ms with
              | nil =>
                  simp only [List.length_cons, List.length_nil, bcastOk] at hbc
                  have hm0 : shapeIs m0 sm = true := hmall m0 (by simp)
                  show shapeIs (.node (tswitchMap m0 as bs)) (k :: s) = true
                  have key : ∀ (as bs : List Tensor), as.length = bs.length →
                      (∀ x ∈ as, shapeIs x s = true) →
                      (∀ x ∈ bs, shapeIs x s = true) →
                      (tswitchMap m0 as bs).length = as.length ∧
                        ∀ c ∈ tswitchMap m0 as bs, shapeIs c s = true := by
                    intro as bs hl hform hbform
                    induction as generalizing bs with
                    | nil => simp [tswitchMap]
                    | cons x xs ih =>
                        cases bs with
                        | nil => simp at hl
                        | cons y ys =>
                            have ihs := ih ys (by simpa using hl)
                              (fun x hx => hform x (by simp [hx]))
                              (fun y hy => hbform y (by simp [hy]))
                            constructor
                            · simp [tswitchMap, ihs.1]
                            · intro c hc
                              rcases List.mem_cons.mp hc with rfl | hc
                              · exact tswitch_shapeIs hm0
                                  (hform x (by simp)) (hbform y (by simp)) hbc
                              · exact ihs.2 c hc
                  apply shapeIs_node_iff.mpr
                  have hk := (key as bs (halen.trans hblen.symm) haall hball)
                  exact ⟨hk.1.trans halen, hk.2⟩
              | cons m1 ms =>
                  simp only [List.length_cons, bcastOk, Bool.and_eq_true,
                    beq_iff_eq] at hbc
                  rcases hbc with ⟨hk, hbc⟩
                  show shapeIs (.node (tswitchZip (m0 :: m1 :: ms) as bs))
                    (k :: s) = true
                  have key : ∀ (ms as bs : List Tensor),
                      ms.length = as.length → as.length = bs.length →
                      (∀ x ∈ ms, shapeIs x sm = true) →
                      (∀ x ∈ as, shapeIs x s = true) →
                      (∀ x ∈ bs, shapeIs x s = true) →
                      (tswitchZip ms as bs).length = as.length ∧
                        ∀ c ∈ tswitchZip ms as bs, shapeIs c s = true := by
                    intro ms as bs hl1 hl2 hmform hform hbform
                    induction ms generalizing as bs with
                    | nil =>
                        have : as = [] :=
                          List.length_eq_zero.mp (by simpa using hl1.symm)
                        subst this
                        simp [tswitchZip]
                    | cons mm mms ih =>
                        cases as with
                        | nil => simp at hl1
                        | cons x xs =>
                            cases bs with
                            | nil => simp at hl2
                            | cons y ys =>
                                have ihs := ih xs ys (by simpa using hl1)
                                  (by simpa using hl2)
                                  (fun u hu => hmform u (by simp [hu]))
                                  (fun u hu => hform u (by simp [hu]))
                                  (fun u hu => hbform u (by simp [hu]))
                                constructor
                                · simp [tswitchZip, ihs.1]
                                · intro c hc
                                  rcases List.mem_cons.mp hc with rfl | hc
                                  · exact tswitch_shapeIs
                                      (hmform mm (by simp))
                                      (hform x (by simp))
                                      (hbform y (by simp)) hbc
                                  · exact ihs.2 c hc
                  apply shapeIs_node_iff.mpr
                  have hz := key (m0 :: m1 :: ms) as bs
                    (by simp only [List.length_cons]; omega)
                    (halen.trans hblen.symm) hmall haall hball
                  exact ⟨hz.1.trans halen, hz.2⟩

/-- `T.switch` with an everywhere-zero mask returns its third argument
(the retained value) exactly, element for element. -/
theorem tswitch_allZero : ∀ {sm s : List Nat} {m a b : Tensor},
    leavesAll (fun v => v == 0) m = true →
    shapeIs m sm = true → shapeIs a s = true → shapeIs b s = true →
    bcastOk sm s = true → tswitch m a b = b
  | [], s, m, a, b, hz, hm, _, _, _ => by
      rcases shapeIs_nil_iff.mp hm with ⟨v, rfl⟩
      rw [tswitch_scalar]
      have : v = 0 := by simpa [leavesAll] using hz
      simp [this]
  | n :: sm, s, m, a, b, hz, hm, ha, hb, hbc => by
      rcases shapeIs_cons_node hm with ⟨ms, rfl⟩
      rcases shapeIs_node_iff.mp hm with ⟨hmlen, hmall⟩
      subst hmlen
      have hzall : ∀ x ∈ ms, leavesAll (fun v => v == 0) x = true :=
        leavesAll_node_iff.mp hz
      cases s with
      | nil => simp [bcastOk] at hbc
      | cons k s =>
          rcases shapeIs_cons_node ha with ⟨as, rfl⟩
          rcases shapeIs_node_iff.mp ha with ⟨halen, haall⟩
          rcases shapeIs_cons_node hb with ⟨bs, rfl⟩
          rcases shapeIs_node_iff.mp hb with ⟨hblen, hball⟩
          cases ms with
          | nil =>
              simp only [List.length_nil, bcastOk, Bool.and_eq_true,
                beq_iff_eq] at hbc
              rcases hbc with ⟨hk, _⟩
              have : as = [] := List.length_eq_zero.mp (by omega)
              subst this
              have : bs = [] := List.length_eq_zero.mp (by omega)
              subst this
              rfl
          | cons m0 ms =>
              cases ms with
              | nil =>
                  simp only [List.length_cons, List.length_nil, bcastOk] at hbc
                  have hm0 : shapeIs m0 sm = true := hmall m0 (by simp)
                  have hz0 := hzall m0 (by simp)
                  show Tensor.node (tswitchMap m0 as bs) = Tensor.node bs
                  have key : ∀ (as bs : List Tensor), as.length = bs.length →
                      (∀ x ∈ as, shapeIs x s = true) →
                      (∀ x ∈ bs, shapeIs x s = true) →
                      tswitchMap m0 as bs = bs := by
                    intro as bs hl hform hbform
                    induction as generalizing bs with
                    | nil =>
                        have : bs = [] :=
                          List.length_eq_zero.mp (by simpa using hl.symm)
                        subst this
                        rfl
                    | cons x xs ih =>
                        cases bs with
                        | nil => simp at hl
                        | cons y ys =>
                            show tswitch m0 x y :: tswitchMap m0 xs ys = y :: ys
                            rw [tswitch_allZero hz0 hm0 (hform x (by simp))
                              (hbform y (by simp)) hbc]
                            rw [ih ys (by simpa using hl)
                              (fun u hu => hform u (by simp [hu]))
                              (fun u hu => hbform u (by simp [hu]))]
                  exact congrArg Tensor.node
                    (key as bs (halen.trans hblen.symm) haall hball)
              | cons m1 ms =>
                  simp only [List.length_cons, bcastOk, Bool.and_eq_true,
                    beq_iff_eq] at hbc
                  rcases hbc with ⟨hk, hbc⟩
                  show Tensor.node (tswitchZip (m0 :: m1 :: ms) as bs) =
                    Tensor.node bs
                  have key : ∀ (ms as bs : List Tensor),
                      ms.length = as.length → as.length = bs.length →
                      (∀ x ∈ ms, shapeIs x sm = true) →
                      (∀ x ∈ ms, leavesAll (fun v => v == 0) x = true) →
                      (∀ x ∈ as, shapeIs x s = true) →
                      (∀ x ∈ bs, shapeIs x s = true) →
                      tswitchZip ms as bs = bs := by
                    intro ms as bs hl1 hl2 hmform hmz hform hbform
                    induction ms generalizing as bs with
                    | nil =>
                        have : as = [] :=
                          List.length_eq_zero.mp (by simpa using hl1.symm)
                        subst this
                        have : bs = [] :=
                          List.length_eq_zero.mp (by simpa using hl2.symm)
                        subst this
                        rfl
                    | cons mm mms ih =>
                        cases as with
                        | nil => simp at hl1
                        | cons x xs =>
                            cases bs with
                            | nil => simp at hl2
                            | cons y ys =>
                                show tswitch mm x y :: tswitchZip mms xs ys =
                                  y :: ys
                                rw [tswitch_allZero (hmz mm (by simp))
                                  (hmform mm (by simp)) (hform x (by simp))
                                  (hbform y (by simp)) hbc]
                                rw [ih xs ys (by simpa using hl1)
                                  (by simpa using hl2)
                                  (fun u hu => hmform u (by simp [hu]))
                                  (fun u hu => hmz u (by simp [hu]))
                                  (fun u hu => hform u (by simp [hu]))
                                  (fun u hu => hbform u (by simp [hu]))]
                  exact congrArg Tensor.node
                    (key (m0 :: m1 :: ms) as bs
                      (by simp only [List.length_cons]; omega)
                      (halen.trans hblen.symm) hmall hzall haall hball)

/-- `T.switch` with an everywhere-one mask returns its second argument
(the candidate value) exactly, element for element. -/
theorem tswitch_allOne : ∀ {sm s : List Nat} {m a b : Tensor},
    leavesAll (fun v => v == 1) m = true →
    shapeIs m sm = true → shapeIs a s = true → shapeIs b s = true →
    bcastOk sm s = true → tswitch m a b = a
  | [], s, m, a, b, ho, hm, _, _, _ => by
      rcases shapeIs_nil_iff.mp hm with ⟨v, rfl⟩
      rw [tswitch_scalar]
      have : v = 1 := by simpa [leavesAll] using ho
      simp [this]
  | n :: sm, s, m, a, b, ho, hm, ha, hb, hbc => by
      rcases shapeIs_cons_node hm with ⟨ms, rfl⟩
      rcases shapeIs_node_iff.mp hm with ⟨hmlen, hmall⟩
      subst hmlen
      have hoall : ∀ x ∈ ms, leavesAll (fun v => v == 1) x = true :=
        leavesAll_node_iff.mp ho
      cases s with
      | nil => simp [bcastOk] at hbc
      | cons k s =>
          rcases shapeIs_cons_node ha with ⟨as, rfl⟩
          rcases shapeIs_node_iff.mp ha with ⟨halen, haall⟩
          rcases shapeIs_cons_node hb with ⟨bs, rfl⟩
          rcases shapeIs_node_iff.mp hb with ⟨hblen, hball⟩
          cases ms with
          | nil =>
              simp only [List.length_nil, bcastOk, Bool.and_eq_true,
                beq_iff_eq] at hbc
              rcases hbc with ⟨hk, _⟩
              have : as = [] := List.length_eq_zero.mp (by omega)
              subst this
              have : bs = [] := List.length_eq_zero.mp (by omega)
              subst this
              rfl
          | cons m0 ms =>
              cases ms with
              | nil =>
                  simp only [List.length_cons, List.length_nil, bcastOk] at hbc
                  have hm0 : shapeIs m0 sm = true := hmall m0 (by simp)
                  have ho0 := hoall m0 (by simp)
                  show Tensor.node (tswitchMap m0 as bs) = Tensor.node as
                  have key : ∀ (as bs : List Tensor), as.length = bs.length →
                      (∀ x ∈ as, shapeIs x s = true) →
                      (∀ x ∈ bs, shapeIs x s = true) →
                      tswitchMap m0 as bs = as := by
                    intro as bs hl hform hbform
                    induction as generalizing bs with
                    | nil => rfl
                    | cons x xs ih =>
                        cases bs with
                        | nil => simp at hl
                        | cons y ys =>
                            show tswitch m0 x y :: tswitchMap m0 xs ys = x :: xs
                            rw [tswitch_allOne ho0 hm0 (hform x (by simp))
                              (hbform y (by simp)) hbc]
                            rw [ih ys (by simpa using hl)
                              (fun u hu => hform u (by simp [hu]))
                              (fun u hu => hbform u (by simp [hu]))]
                  exact congrArg Tensor.node
                    (key as bs (halen.trans hblen.symm) haall hball)
              | cons m1 ms =>
                  simp only [List.length_cons, bcastOk, Bool.and_eq_true,
                    beq_iff_eq] at hbc
                  rcases hbc with ⟨hk, hbc⟩
                  show Tensor.node (tswitchZip (m0 :: m1 :: ms) as bs) =
                    Tensor.node as
                  have key : ∀ (ms as bs : List Tensor),
                      ms.length = as.length → as.length = bs.length →
                      (∀ x ∈ ms, shapeIs x sm = true) →
                      (∀ x ∈ ms, leavesAll (fun v => v == 1) x = true) →
                      (∀ x ∈ as, shapeIs x s = true) →
                      (∀ x ∈ bs, shapeIs x s = true) →
                      tswitchZip ms as bs = as := by
                    intro ms as bs hl1 hl2 hmform hmo hform hbform
                    induction ms generalizing as bs with
                    | nil =>
                        have : as = [] :=
                          List.length_eq_zero.mp (by simpa using hl1.symm)
                        subst this
                        rfl
                    | cons mm mms ih =>
                        cases as with
                        | nil => simp at hl1
                        | cons x xs =>
                            cases bs with
                            | nil => simp at hl2
                            | cons y ys =>
                                show tswitch mm x y :: tswitchZip mms xs ys =
                                  x :: xs
                                rw [tswitch_allOne (hmo mm (by simp))
                                  (hmform mm (by simp)) (hform x (by simp))
                                  (hbform y (by simp)) hbc]
                                rw [ih xs ys (by simpa using hl1)
                                  (by simpa using hl2)
                                  (fun u hu => hmform u (by simp [hu]))
                                  (fun u hu => hmo u (by simp [hu]))
                                  (fun u hu => hform u (by simp [hu]))
                                  (fun u hu => hbform u (by simp [hu]))]
                  exact congrArg Tensor.node
                    (key (m0 :: m1 :: ms) as bs
                      (by simp only [List.length_cons]; omega)
                      (halen.trans hblen.symm) hmall hoall haall hball)

/-! ## State-list retention (`zip(states, new_states)`) lemmas -/

/-- The per-state retention of the masked `_step` preserves the shapes
of the state list. -/
theorem zipWith_tswitch_shapes {m : Tensor} {msl : List Nat} :
    ∀ {stS : List (List Nat)} {sts ns : List Tensor},
    shapeIs m msl = true → (∀ st ∈ stS, bcastOk msl st = true) →
    shapesAre sts stS = true → shapesAre ns stS = true →
    shapesAre (List.zipWith (fun s n => tswitch m n s) sts ns) stS = true
  | [], [], [], _, _, _, _ => rfl
  | [], [], _ :: _, _, _, _, hn => by simp [shapesAre] at hn
  | [], _ :: _, _, _, _, hs, _ => by simp [shapesAre] at hs
  | _ :: _, [], _, _, _, hs, _ => by simp [shapesAre] at hs
  | _ :: _, _ :: _, [], _, _, _, hn => by simp [shapesAre] at hn
  | st :: stS, s :: sts, n :: ns, hm, hb, hs, hn => by
      simp only [shapesAre, Bool.and_eq_true] at hs hn
      simp only [List.zipWith_cons_cons, shapesAre, Bool.and_eq_true]
      exact ⟨tswitch_shapeIs hm hn.1 hs.1 (hb st (by simp)),
        zipWith_tswitch_shapes hm (fun u hu => hb u (by simp [hu])) hs.2 hn.2⟩

/-- With an everywhere-zero mask the per-state retention returns the old
state list exactly. -/
theorem zipWith_tswitch_allZero {m : Tensor} {msl : List Nat} :
    ∀ {stS : List (List Nat)} {sts ns : List Tensor},
    leavesAll (fun v => v == 0) m = true →
    shapeIs m msl = true → (∀ st ∈ stS, bcastOk msl st = true) →
    shapesAre sts stS = true → shapesAre ns stS = true →
    List.zipWith (fun s n => tswitch m n s) sts ns = sts
  | [], [], [], _, _, _, _, _ => rfl
  | [], [], _ :: _, _, _, _, _, hn => by simp [shapesAre] at hn
  | [], _ :: _, _, _, _, _, hs, _ => by simp [shapesAre] at hs
  | _ :: _, [], _, _, _, _, hs, _ => by simp [shapesAre] at hs
  | _ :: _, _ :: _, [], _, _, _, _, hn => by simp [shapesAre] at hn
  | st :: stS, s :: sts, n :: ns, hz, hm, hb, hs, hn => by
      simp only [shapesAre, Bool.and_eq_true] at hs hn
      simp only [List.zipWith_cons_cons]
      rw [tswitch_allZero hz hm hn.1 hs.1 (hb st (by simp)),
        zipWith_tswitch_allZero hz hm (fun u hu => hb u (by simp [hu]))
          hs.2 hn.2]

/-- With an everywhere-one mask the per-state retention returns the new
state list exactly. -/
theorem zipWith_tswitch_allOne {m : Tensor} {msl : List Nat} :
    ∀ {stS : List (List Nat)} {sts ns : List Tensor},
    leavesAll (fun v => v == 1) m = true →
    shapeIs m msl = true → (∀ st ∈ stS, bcastOk msl st = true) →
    shapesAre sts stS = true → shapesAre ns stS = true →
    List.zipWith (fun s n => tswitch m n s) sts ns = ns
  | [], [], [], _, _, _, _, _ => rfl
  | [], [], _ :: _, _, _, _, _, hn => by simp [shapesAre] at hn
  | [], _ :: _, _, _, _, _, hs, _ => by simp [shapesAre] at hs
  | _ :: _, [], _, _, _, _, hs, _ => by simp [shapesAre] at hs
  | _ :: _, _ :: _, [], _, _, _, _, hn => by simp [shapesAre] at hn
  | st :: stS, s :: sts, n :: ns, ho, hm, hb, hs, hn => by
      simp only [shapesAre, Bool.and_eq_true] at hs hn
      simp only [List.zipWith_cons_cons]
      rw [tswitch_allOne ho hm hn.1 hs.1 (hb st (by simp)),
        zipWith_tswitch_allOne ho hm (fun u hu => hb u (by simp [hu]))
          hs.2 hn.2]

/-! ## Scan-loop lemmas -/

theorem scanUnmaskedAux_length (stepf : StepFun) :
    ∀ (xs sts : List Tensor),
      (scanUnmaskedAux stepf xs sts).length = xs.length
  | [], _ => rfl
  | x :: xs, sts => by
      simp [scanUnmaskedAux, scanUnmaskedAux_length stepf xs]

theorem scanMaskedAux_length (stepf : StepFun) :
    ∀ (xs ms : List Tensor) (o : Tensor) (sts : List Tensor),
      (scanMaskedAux stepf xs ms o sts).length = min xs.length ms.length
  | [], _, _, _ => by simp [scanMaskedAux]
  | _ :: _, [], _, _ => by simp [scanMaskedAux]
  | x :: xs, m :: ms, o, sts => by
      simp [scanMaskedAux, scanMaskedAux_length stepf xs ms]
      omega

theorem scanMaskedAux_cons (stepf : StepFun) (x m o : Tensor)
    (xs ms sts : List Tensor) :
    scanMaskedAux stepf (x :: xs) (m :: ms) o sts =
      maskedStep stepf x m o sts ::
        scanMaskedAux stepf xs ms (maskedStep stepf x m o sts).1
          (maskedStep stepf x m o sts).2 := rfl

/-- Step characterization: entry `k+1` of the masked scan is the masked
step applied to slice `k+1` and the carry recorded at entry `k`. -/
theorem scanMaskedAux_getD_succ (stepf : StepFun) :
    ∀ (xs ms : List Tensor) (o : Tensor) (sts : List Tensor) (k : Nat),
      k + 1 < (scanMaskedAux stepf xs ms o sts).length →
      (scanMaskedAux stepf xs ms o sts).getD (k + 1) default =
        maskedStep stepf (xs.getD (k + 1) default) (ms.getD (k + 1) default)
          ((scanMaskedAux stepf xs ms o sts).getD k default).1
          ((scanMaskedAux stepf xs ms o sts).getD k default).2
  | [], _, _, _, _, h => by simp [scanMaskedAux] at h
  | _ :: _, [], _, _, _, h => by simp [scanMaskedAux] at h
  | x :: xs, m :: ms, o, sts, k, h => by
      rw [scanMaskedAux_cons] at h ⊢
      cases k with
      | zero =>
          simp only [List.length_cons] at h
          match xs, ms, h with
          | x1 :: xs, m1 :: ms, _ => simp [scanMaskedAux_cons]
          | [], _, h => simp [scanMaskedAux, scanMaskedAux_length] at h
          | _ :: _, [], h => simp [scanMaskedAux, scanMaskedAux_length] at h
      | succ k =>
          simp only [List.length_cons, Nat.add_lt_add_iff_right] at h
          simpa using scanMaskedAux_getD_succ stepf xs ms _ _ k h

/-- Shape invariant of the masked scan: every recorded output has the
step output's shape and every recorded state list has the initial state
shapes. -/
theorem scanMaskedAux_shapes (stepf : StepFun) {oS : List Nat}
    {stS : List (List Nat)} {msl : List Nat} :
    ∀ (xs ms : List Tensor) (o : Tensor) (sts : List Tensor),
      StepOk stepf xs oS stS →
      (∀ mm ∈ ms, shapeIs mm msl = true) →
      bcastOk msl oS = true →
      (∀ st ∈ stS, bcastOk msl st = true) →
      shapeIs o oS = true → shapesAre sts stS = true →
      ∀ k, k < (scanMaskedAux stepf xs ms o sts).length →
        shapeIs ((scanMaskedAux stepf xs ms o sts).getD k default).1 oS = true ∧
        shapesAre ((scanMaskedAux stepf xs ms o sts).getD k default).2 stS = true
  | [], _, _, _, _, _, _, _, _, _, _, h => by simp [scanMaskedAux] at h
  | _ :: _, [], _, _, _, _, _, _, _, _, _, h => by simp [scanMaskedAux] at h
  | x :: xs, m :: ms, o, sts, hstep, hms, hb1, hb2, ho, hsts, k, h => by
      have hcand := hstep x (by simp) sts hsts
      have hout : shapeIs (maskedStep stepf x m o sts).1 oS = true :=
        tswitch_shapeIs (hms m (by simp)) hcand.1 ho hb1
      have hst : shapesAre (maskedStep stepf x m o sts).2 stS = true :=
        zipWith_tswitch_shapes (hms m (by simp)) hb2 hsts hcand.2
      rw [scanMaskedAux_cons] at h ⊢
      cases k with
      | zero => exact ⟨hout, hst⟩
      | succ k =>
          simp only [List.getD_cons_succ]
          exact scanMaskedAux_shapes stepf xs ms _ _
            (fun u hu => hstep u (by simp [hu]))
            (fun u hu => hms u (by simp [hu])) hb1 hb2 hout hst k
            (by simpa using h)

/-- Shape invariant of the unmasked scan. -/
theorem scanUnmaskedAux_shapes (stepf : StepFun) {oS : List Nat}
    {stS : List (List Nat)} :
    ∀ (xs sts : List Tensor),
      StepOk stepf xs oS stS → shapesAre sts stS = true →
      ∀ k, k < (scanUnmaskedAux stepf xs sts).length →
        shapeIs ((scanUnmaskedAux stepf xs sts).getD k default).1 oS = true ∧
        shapesAre ((scanUnmaskedAux stepf xs sts).getD k default).2 stS = true
  | [], _, _, _, _, h => by simp [scanUnmaskedAux] at h
  | x :: xs, sts, hstep, hsts, k, h => by
      have hcand := hstep x (by simp) sts hsts
      show shapeIs (((stepf x sts) ::
        scanUnmaskedAux stepf xs (stepf x sts).2).getD k default).1 oS = true ∧ _
      cases k with
      | zero => exact hcand
      | succ k =>
          simp only [List.getD_cons_succ]
          exact scanUnmaskedAux_shapes stepf xs (stepf x sts).2
            (fun u hu => hstep u (by simp [hu])) hcand.2 k
            (by simpa [scanUnmaskedAux] using h)

/-- Retention freeze: with an everywhere-zero mask slice, a masked step
returns exactly its carried output and states. -/
theorem maskedStep_allZero {stepf : StepFun} {x m o : Tensor}
    {sts : List Tensor} {oS msl : List Nat} {stS : List (List Nat)}
    (hz : leavesAll (fun v => v == 0) m = true)
    (hm : shapeIs m msl = true) (hb1 : bcastOk msl oS = true)
    (hb2 : ∀ st ∈ stS, bcastOk msl st = true)
    (ho : shapeIs o oS = true) (hsts : shapesAre sts stS = true)
    (hcand : shapeIs (stepf x sts).1 oS = true ∧
      shapesAre (stepf x sts).2 stS = true) :
    maskedStep stepf x m o sts = (o, sts) := by
  simp only [maskedStep]
  rw [tswitch_allZero hz hm hcand.1 ho hb1,
    zipWith_tswitch_allZero hz hm hb2 hsts hcand.2]

/-- Retention pass-through: with an everywhere-one mask slice, a masked
step returns exactly the step function's candidate output and states. -/
theorem maskedStep_allOne {stepf : StepFun} {x m o : Tensor}
    {sts : List Tensor} {oS msl : List Nat} {stS : List (List Nat)}
    (h1 : leavesAll (fun v => v == 1) m = true)
    (hm : shapeIs m msl = true) (hb1 : bcastOk msl oS = true)
    (hb2 : ∀ st ∈ stS, bcastOk msl st = true)
    (ho : shapeIs o oS = true) (hsts : shapesAre sts stS = true)
    (hcand : shapeIs (stepf x sts).1 oS = true ∧
      shapesAre (stepf x sts).2 stS = true) :
    maskedStep stepf x m o sts = stepf x sts := by
  simp only [maskedStep]
  rw [tswitch_allOne h1 hm hcand.1 ho hb1,
    zipWith_tswitch_allOne h1 hm hb2 hsts hcand.2]

/-- Mask identity on the loop: with everywhere-one mask slices the
masked scan records exactly what the unmasked scan records. -/
theorem scanMaskedAux_allOnes (stepf : StepFun) {oS : List Nat}
    {stS : List (List Nat)} {msl : List Nat} :
    ∀ (xs ms : List Tensor) (o : Tensor) (sts : List Tensor),
      StepOk stepf xs oS stS →
      (∀ mm ∈ ms, shapeIs mm msl = true) →
      (∀ mm ∈ ms, leavesAll (fun v => v == 1) mm = true) →
      bcastOk msl oS = true →
      (∀ st ∈ stS, bcastOk msl st = true) →
      shapeIs o oS = true → shapesAre sts stS = true →
      xs.length ≤ ms.length →
      scanMaskedAux stepf xs ms o sts = scanUnmaskedAux stepf xs sts
  | [], ms, _, _, _, _, _, _, _, _, _, _ => by
      cases ms <;> rfl
  | x :: xs, [], _, _, _, _, _, _, _, _, _, hlen => by simp at hlen
  | x :: xs, m :: ms, o, sts, hstep, hms, hones, hb1, hb2, ho, hsts, hlen => by
      have hcand := hstep x (by simp) sts hsts
      rw [scanMaskedAux_cons,
        maskedStep_allOne (hones m (by simp)) (hms m (by simp)) hb1 hb2 ho
          hsts hcand]
      show _ = (stepf x sts) :: scanUnmaskedAux stepf xs (stepf x sts).2
      rw [scanMaskedAux_allOnes stepf xs ms (stepf x sts).1 (stepf x sts).2
        (fun u hu => hstep u (by simp [hu]))
        (fun u hu => hms u (by simp [hu]))
        (fun u hu => hones u (by simp [hu])) hb1 hb2 hcand.1 hcand.2
        (by simpa using hlen)]

/-- Zero prefix: while the mask slices are everywhere zero, the masked
scan keeps recording the seed output and the initial states unchanged. -/
theorem scanMaskedAux_zero_prefix (stepf : StepFun) {oS : List Nat}
    {stS : List (List Nat)} {msl : List Nat} :
    ∀ (xs ms : List Tensor) (o : Tensor) (sts : List Tensor),
      StepOk stepf xs oS stS →
      (∀ mm ∈ ms, shapeIs mm msl = true) →
      bcastOk msl oS = true →
      (∀ st ∈ stS, bcastOk msl st = true) →
      shapeIs o oS = true → shapesAre sts stS = true →
      ∀ k, k < (scanMaskedAux stepf xs ms o sts).length →
        (∀ j, j ≤ k → leavesAll (fun v => v == 0) (ms.getD j default) = true) →
        (scanMaskedAux stepf xs ms o sts).getD k default = (o, sts)
  | [], _, _, _, _, _, _, _, _, _, _, h, _ => by simp [scanMaskedAux] at h
  | _ :: _, [], _, _, _, _, _, _, _, _, _, h, _ => by simp [scanMaskedAux] at h
  | x :: xs, m :: ms, o, sts, hstep, hms, hb1, hb2, ho, hsts, k, h, hz => by
      have hcand := hstep x (by simp) sts hsts
      have hfreeze : maskedStep stepf x m o sts = (o, sts) :=
        maskedStep_allZero (by simpa using hz 0 (Nat.zero_le k))
          (hms m (by simp)) hb1 hb2 ho hsts hcand
      rw [scanMaskedAux_cons, hfreeze] at h ⊢
      cases k with
      | zero => rfl
      | succ k =>
          simp only [List.getD_cons_succ]
          exact scanMaskedAux_zero_prefix stepf xs ms o sts
            (fun u hu => hstep u (by simp [hu]))
            (fun u hu => hms u (by simp [hu])) hb1 hb2 ho hsts k
            (by simpa using h)
            (fun j hj => by simpa using hz (j + 1) (by omega))

/-- Pass-through steps: when the step function returns its state list
unchanged, the unmasked scan is a plain map over the time slices. -/
theorem scanUnmaskedAux_passthrough (stepf : StepFun) :
    ∀ (xs sts : List Tensor), (∀ x ∈ xs, (stepf x sts).2 = sts) →
      scanUnmaskedAux stepf xs sts = xs.map fun x => stepf x sts
  | [], _, _ => rfl
  | x :: xs, sts, hpass => by
      show (stepf x sts) :: scanUnmaskedAux stepf xs (stepf x sts).2 = _
      rw [hpass x (by simp),
        scanUnmaskedAux_passthrough stepf xs sts
          (fun u hu => hpass u (by simp [hu]))]
      rfl

/-! ## Scan arity-validation lemmas -/

theorem rnnUnmaskedScan_ok (stepf : StepFun) (xs sts : List Tensor)
    (h : ∀ x ∈ xs, ((stepf x sts).2).length = sts.length) :
    rnnUnmaskedScan stepf xs sts = .ok (scanUnmaskedAux stepf xs sts) := by
  cases xs with
  | nil => rfl
  | cons x xs => simp [rnnUnmaskedScan, h x (by simp)]

theorem rnnUnmaskedScan_err (stepf : StepFun) (x : Tensor)
    (xs sts : List Tensor) (h : ((stepf x sts).2).length ≠ sts.length) :
    rnnUnmaskedScan stepf (x :: xs) sts = .error .invalidArgument := by
  simp [rnnUnmaskedScan, h]

theorem rnnMaskedScan_ok (stepf : StepFun) (xs ms : List Tensor)
    (o : Tensor) (sts : List Tensor)
    (h : ∀ x ∈ xs, sts.length ≤ ((stepf x sts).2).length) :
    rnnMaskedScan stepf xs ms o sts =
      .ok (scanMaskedAux stepf xs ms o sts) := by
  cases xs with
  | nil => rfl
  | cons x xs =>
      cases ms with
      | nil => rfl
      | cons m ms =>
          have : (maskedStep stepf x m o sts).2.length = sts.length := by
            simp only [maskedStep, List.length_zipWith]
            exact Nat.min_eq_left (h x (by simp))
          simp [rnnMaskedScan, this]

theorem rnnMaskedScan_err (stepf : StepFun) (x m o : Tensor)
    (xs ms sts : List Tensor)
    (h : ((stepf x sts).2).length < sts.length) :
    rnnMaskedScan stepf (x :: xs) (m :: ms) o sts =
      .error .invalidArgument := by
  have : (maskedStep stepf x m o sts).2.length ≠ sts.length := by
    simp only [maskedStep, List.length_zipWith]
    omega
  simp [rnnMaskedScan, this]

/-! ## Output-assembly lemmas -/

theorem forall_mem_of_forall_getD {α : Type _} {l : List α} {P : α → Prop}
    (d : α) (h : ∀ k, k < l.length → P (l.getD k d)) : ∀ x ∈ l, P x := by
  intro x hx
  rcases List.mem_iff_getElem.mp hx with ⟨k, hk, rfl⟩
  have := h k hk
  rwa [List.getD_eq_getElem?_getD, List.getElem?_eq_getElem hk] at this

theorem scanReturn_cons_cons (a : Tensor) (l : List Tensor) (h : l ≠ []) :
    scanReturn (a :: l) = .multi (a :: l) := by
  cases l with
  | nil => exact absurd rfl h
  | cons b l => rfl

/-- Unfolding of the output assembly on a scan result stack: the
returned `last_output` is the output recorded at the final loop
position, `outputs` is the batch-major transposition of the loop-order
output stack, and the returned states are the state list recorded at
the final loop position. -/
theorem assemble_stack (n : Nat) (results : List (Tensor × List Tensor))
    (hne : results ≠ []) :
    assemble (scanReturn (stackResults n results)) =
      ⟨(results.getLastD default).1,
       transpose01 (.node (results.map Prod.fst)),
       (List.range n).map fun i => (results.getLastD default).2.getD i default⟩ := by
  cases n with
  | zero =>
      show assemble (scanReturn [Tensor.node (results.map Prod.fst)]) = _
      show RnnResult.mk ((results.map Prod.fst).getLastD default)
        (transpose01 (tsqueeze (.node (results.map Prod.fst)))) [] = _
      rw [getLastD_map Prod.fst results default default hne]
      rfl
  | succ n0 =>
      have hss : (List.range (n0 + 1)).map
          (fun i => Tensor.node (results.map fun r => r.2.getD i default)) ≠
          [] := by simp
      show assemble (scanReturn (Tensor.node (results.map Prod.fst) ::
        (List.range (n0 + 1)).map
          (fun i => Tensor.node (results.map fun r => r.2.getD i default)))) = _
      rw [scanReturn_cons_cons _ _ hss]
      show RnnResult.mk ((results.map Prod.fst).getLastD default)
        (transpose01 (tsqueeze (.node (results.map Prod.fst))))
        (((List.range (n0 + 1)).map
          (fun i => Tensor.node (results.map fun r => r.2.getD i default))).map
            fun state => tsqueeze (state.children.getLastD default)) = _
      rw [getLastD_map Prod.fst results default default hne, List.map_map]
      apply congrArg
      apply List.map_congr_left
      intro i _
      show tsqueeze ((Tensor.node (results.map fun r => r.2.getD i default)).children.getLastD
        default) = (results.getLastD default).2.getD i default
      show (results.map fun r => r.2.getD i default).getLastD default = _
      rw [getLastD_map (fun r : Tensor × List Tensor => r.2.getD i default)
        results default default hne]

theorem rnnUnmaskedScan_error_cases (stepf : StepFun) (xs sts : List Tensor) :
    rnnUnmaskedScan stepf xs sts = .ok (scanUnmaskedAux stepf xs sts) ∨
      rnnUnmaskedScan stepf xs sts = .error .invalidArgument := by
  cases xs with
  | nil => exact Or.inl rfl
  | cons x xs =>
      by_cases h : ((stepf x sts).2).length = sts.length
      · exact Or.inl (by simp [rnnUnmaskedScan, h])
      · exact Or.inr (by simp [rnnUnmaskedScan, h])

/-! ## `rnn` run lemmas -/

/-- A rank-deficient input fails the `ndim >= 3` assertion immediately,
whatever the step function, states, direction and mask. -/
theorem rnn_lowrank (stepf : StepFun) (inputs : Tensor) (sts : List Tensor)
    (gb : Bool) (mask : Option Tensor) (h : inputs.ndim < 3) :
    rnn stepf inputs sts gb mask = .error .invalidShape := by
  simp only [rnn, if_pos h]

/-- Unfolding of a completed unmasked run. -/
theorem rnn_unmasked_run (stepf : StepFun) (inputs : Tensor)
    (sts : List Tensor) (gb : Bool) (h3 : 3 ≤ inputs.ndim)
    (harity : ∀ x ∈ (transpose01 inputs).children,
      ((stepf x sts).2).length = sts.length) :
    rnn stepf inputs sts gb none =
      .ok (assemble (scanReturn (stackResults sts.length
        (scanUnmaskedAux stepf
          (if gb then (transpose01 inputs).children.reverse
           else (transpose01 inputs).children) sts)))) := by
  have harity2 : ∀ x ∈ (if gb then (transpose01 inputs).children.reverse
      else (transpose01 inputs).children),
      ((stepf x sts).2).length = sts.length := by
    intro x hx
    apply harity
    cases gb with
    | false => simpa using hx
    | true => exact List.mem_reverse.mp (by simpa using hx)
  simp only [rnn, if_neg (by omega : ¬ inputs.ndim < 3)]
  rw [rnnUnmaskedScan_ok stepf _ sts harity2]

/-- Unfolding of a completed masked run: the seed output is the
zero-multiplied step output on the first (non-reversed) time slice, and
the loop consumes the (possibly reversed) time-major slices of input
and normalized mask. -/
theorem rnn_masked_run (stepf : StepFun) (inputs mask0 mask1 : Tensor)
    (sts : List Tensor) (gb : Bool) (h3 : 3 ≤ inputs.ndim)
    (hnm : normalizeMask inputs.ndim mask0 = .ok mask1)
    (harity : ∀ x ∈ (transpose01 inputs).children,
      sts.length ≤ ((stepf x sts).2).length) :
    rnn stepf inputs sts gb (some mask0) =
      .ok (assemble (scanReturn (stackResults sts.length
        (scanMaskedAux stepf
          (if gb then (transpose01 inputs).children.reverse
           else (transpose01 inputs).children)
          (if gb then (transpose01 mask1).children.reverse
           else (transpose01 mask1).children)
          (tzeroLike (stepf ((transpose01 inputs).children.headD default)
            sts).1)
          sts)))) := by
  have harity2 : ∀ x ∈ (if gb then (transpose01 inputs).children.reverse
      else (transpose01 inputs).children),
      sts.length ≤ ((stepf x sts).2).length := by
    intro x hx
    apply harity
    cases gb with
    | false => simpa using hx
    | true => exact List.mem_reverse.mp (by simpa using hx)
  simp only [rnn, if_neg (by omega : ¬ inputs.ndim < 3), hnm]
  rw [rnnMaskedScan_ok stepf _ _ _ sts harity2]

/-- A mask failing the rank normalization aborts the run with
`InvalidShape` before any scan runs, whatever the step function. -/
theorem rnn_badmask (stepf : StepFun) (inputs mask0 : Tensor)
    (sts : List Tensor) (gb : Bool) (h3 : 3 ≤ inputs.ndim)
    (hnm : normalizeMask inputs.ndim mask0 = .error .invalidShape) :
    rnn stepf inputs sts gb (some mask0) = .error .invalidShape := by
  simp only [rnn, if_neg (by omega : ¬ inputs.ndim < 3), hnm]

/-- An unmasked run with rank-correct input never reports
`InvalidShape`: the only remaining failure is the scan's arity check. -/
theorem rnn_unmasked_not_invalidShape (stepf : StepFun) (inputs : Tensor)
    (sts : List Tensor) (gb : Bool) (h3 : 3 ≤ inputs.ndim) :
    rnn stepf inputs sts gb none ≠ .error .invalidShape := by
  simp only [rnn, if_neg (by omega : ¬ inputs.ndim < 3)]
  rcases rnnUnmaskedScan_error_cases stepf
    (if gb then (transpose01 inputs).children.reverse
     else (transpose01 inputs).children) sts with h | h
  · rw [h]
    simp
  · rw [h]
    simp

/-- Membership in the (possibly reversed) loop slice list is membership
in the slice list. -/
theorem mem_of_mem_loopOrder {xs : List Tensor} {gb : Bool} {x : Tensor}
    (hx : x ∈ (if gb then xs.reverse else xs)) : x ∈ xs := by
  cases gb with
  | false => simpa using hx
  | true => exact List.mem_reverse.mp (by simpa using hx)

/-- A completed unmasked run, together with the loop-order result list
it assembles and that list's shape invariant. -/
theorem rnn_unmasked_results (stepf : StepFun) (inputs : Tensor)
    (sts : List Tensor) (gb : Bool)
    {S T : Nat} {fs oS : List Nat} {stS : List (List Nat)}
    (hin : shapeIs inputs (S :: T :: fs) = true)
    (hpos : ∀ d ∈ S :: T :: fs, 0 < d) (hfs : fs ≠ [])
    (hstep : StepOk stepf (transpose01 inputs).children oS stS)
    (hsts : shapesAre sts stS = true) :
    rnn stepf inputs sts gb none =
      .ok (assemble (scanReturn (stackResults sts.length
        (rnnUnmaskedResults stepf inputs sts gb)))) ∧
    (rnnUnmaskedResults stepf inputs sts gb).length = T ∧
    ∀ r ∈ rnnUnmaskedResults stepf inputs sts gb,
      shapeIs r.1 oS = true ∧ shapesAre r.2 stS = true := by
  have h3 : 3 ≤ inputs.ndim := by
    rw [ndim_of_shapeIs hin hpos]
    have := List.length_pos.mpr hfs
    simp only [List.length_cons]
    omega
  have hxslen : (transpose01 inputs).children.length = T :=
    (transpose01_children hin (hpos S (by simp))).1
  have hstepL : StepOk stepf
      (if gb then (transpose01 inputs).children.reverse
       else (transpose01 inputs).children) oS stS :=
    fun x hx => hstep x (mem_of_mem_loopOrder hx)
  have harity : ∀ x ∈ (transpose01 inputs).children,
      ((stepf x sts).2).length = sts.length := fun x hx => by
    rw [shapesAre_length (hstep x hx sts hsts).2, shapesAre_length hsts]
  simp only [rnnUnmaskedResults]
  refine ⟨rnn_unmasked_run stepf inputs sts gb h3 harity, ?_, ?_⟩
  · rw [scanUnmaskedAux_length]
    cases gb <;> simp [hxslen]
  · exact forall_mem_of_forall_getD default
      (scanUnmaskedAux_shapes stepf _ sts hstepL hsts)

/-- A completed masked run, together with the loop-order result list it
assembles and that list's shape invariant. -/
theorem rnn_masked_results (stepf : StepFun) (inputs mask0 mask1 : Tensor)
    (sts : List Tensor) (gb : Bool)
    {S T : Nat} {fs msl oS : List Nat} {stS : List (List Nat)}
    (hin : shapeIs inputs (S :: T :: fs) = true)
    (hpos : ∀ d ∈ S :: T :: fs, 0 < d) (hfs : fs ≠ []) (hT : 0 < T)
    (hnm : normalizeMask inputs.ndim mask0 = .ok mask1)
    (hm1 : shapeIs mask1 (S :: T :: msl) = true)
    (hstep : StepOk stepf (transpose01 inputs).children oS stS)
    (hb1 : bcastOk (S :: msl) oS = true)
    (hb2 : ∀ st ∈ stS, bcastOk (S :: msl) st = true)
    (hsts : shapesAre sts stS = true) :
    rnn stepf inputs sts gb (some mask0) =
      .ok (assemble (scanReturn (stackResults sts.length
        (rnnMaskedResults stepf inputs mask1 sts gb)))) ∧
    (rnnMaskedResults stepf inputs mask1 sts gb).length = T ∧
    ∀ r ∈ rnnMaskedResults stepf inputs mask1 sts gb,
      shapeIs r.1 oS = true ∧ shapesAre r.2 stS = true := by
  have h3 : 3 ≤ inputs.ndim := by
    rw [ndim_of_shapeIs hin hpos]
    have := List.length_pos.mpr hfs
    simp only [List.length_cons]
    omega
  have hxslen : (transpose01 inputs).children.length = T :=
    (transpose01_children hin (hpos S (by simp))).1
  have hxsne : (transpose01 inputs).children ≠ [] := by
    intro h
    rw [h] at hxslen
    simp at hxslen
    omega
  have hstepL : StepOk stepf
      (if gb then (transpose01 inputs).children.reverse
       else (transpose01 inputs).children) oS stS :=
    fun x hx => hstep x (mem_of_mem_loopOrder hx)
  have harity : ∀ x ∈ (transpose01 inputs).children,
      sts.length ≤ ((stepf x sts).2).length := fun x hx =>
    le_of_eq (by rw [shapesAre_length (hstep x hx sts hsts).2,
      shapesAre_length hsts])
  have hmsl : ∀ sl ∈ (transpose01 mask1).children,
      shapeIs sl (S :: msl) = true :=
    (transpose01_children hm1 (hpos S (by simp))).2
  have hmslen : (transpose01 mask1).children.length = T :=
    (transpose01_children hm1 (hpos S (by simp))).1
  have hmslL : ∀ sl ∈ (if gb then (transpose01 mask1).children.reverse
      else (transpose01 mask1).children), shapeIs sl (S :: msl) = true :=
    fun sl hsl => hmsl sl (mem_of_mem_loopOrder hsl)
  have hseed : shapeIs (tzeroLike
      (stepf ((transpose01 inputs).children.headD default) sts).1) oS = true := by
    rw [shapeIs_tzeroLike]
    exact (hstep _ (headD_mem default hxsne) sts hsts).1
  simp only [rnnMaskedResults]
  refine ⟨rnn_masked_run stepf inputs mask0 mask1 sts gb h3 hnm harity, ?_, ?_⟩
  · rw [scanMaskedAux_length]
    cases gb <;> simp [hxslen, hmslen]
  · exact forall_mem_of_forall_getD default
      (scanMaskedAux_shapes stepf _ _ _ sts hstepL hmslL hb1 hb2 hseed hsts)

/-- `outputs[:, -1, ...]` of an assembled result equals its
`last_output`. -/
theorem assemble_lastColumn (n : Nat) (results : List (Tensor × List Tensor))
    {S : Nat} {fo : List Nat} (hne : results ≠ [])
    (hsh : ∀ r ∈ results, shapeIs r.1 (S :: fo) = true) :
    lastColumn (assemble (scanReturn (stackResults n results))).outputs =
      (assemble (scanReturn (stackResults n results))).last_output := by
  rw [assemble_stack n results hne]
  show lastColumn (transpose01 (.node (results.map Prod.fst))) =
    (results.getLastD default).1
  rw [lastColumn_transpose01 (by simpa using hne)
    (fun sl hsl => by
      rcases List.mem_map.mp hsl with ⟨r, hr, rfl⟩
      exact hsh r hr)]
  exact getLastD_map Prod.fst results default default hne

/-- Shapes of an assembled result: batch-major `(samples, time,
features)` outputs and final states shaped like the recorded state
lists. -/
theorem assemble_shapes (results : List (Tensor × List Tensor))
    {S T : Nat} {fo : List Nat} {stS : List (List Nat)}
    (hlen : results.length = T) (hT : 0 < T)
    (hsh : ∀ r ∈ results, shapeIs r.1 (S :: fo) = true ∧
      shapesAre r.2 stS = true) :
    shapeIs (assemble (scanReturn (stackResults stS.length results))).outputs
      (S :: T :: fo) = true ∧
    (assemble (scanReturn (stackResults stS.length results))).states =
      (results.getLastD default).2 := by
  have hne : results ≠ [] := by
    intro h
    rw [h] at hlen
    simp at hlen
    omega
  have hlast : results.getLastD default ∈ results := by
    cases results with
    | nil => exact absurd rfl hne
    | cons x l =>
        rw [List.getLastD_cons]
        exact List.getLastD_mem_cons l x
  rw [assemble_stack _ results hne]
  constructor
  · show shapeIs (transpose01 (.node (results.map Prod.fst)))
      (S :: T :: fo) = true
    apply shapeIs_transpose01 _ hT
    apply shapeIs_node_iff.mpr
    refine ⟨by simp [hlen], ?_⟩
    intro u hu
    rcases List.mem_map.mp hu with ⟨r, hr, rfl⟩
    exact (hsh r hr).1
  · show (List.range stS.length).map
      (fun i => (results.getLastD default).2.getD i default) =
      (results.getLastD default).2
    have hslen : (results.getLastD default).2.length = stS.length :=
      shapesAre_length (hsh _ hlast).2
    rw [← hslen]
    exact range_map_getD _ default

theorem getLastD_mem {α : Type _} {l : List α} (d : α) (h : l ≠ []) :
    l.getLastD d ∈ l := by
  cases l with
  | nil => exact absurd rfl h
  | cons x l =>
      rw [List.getLastD_cons]
      exact List.getLastD_mem_cons l x

/-- Extracting loop-order time index `t` from the batch-major transposed
output stack recovers the `t`-th loop-order output slice. -/
theorem timeColumn_transpose01 {slices : List Tensor} {a : Nat}
    {s : List Nat} {t : Nat} (ht : t < slices.length)
    (hsh : ∀ sl ∈ slices, shapeIs sl (a :: s) = true) :
    timeColumn t (transpose01 (.node slices)) = slices.getD t default := by
  have hne : slices ≠ [] := by
    intro h
    rw [h] at ht
    simp at ht
  have hmem : slices.getD t default ∈ slices := getD_mem default ht
  rcases shapeIs_cons_node (hsh _ hmem) with ⟨cs, hcs⟩
  have hcslen : cs.length = a := by
    have := (children_of_shapeIs (hsh _ hmem)).1
    rwa [hcs] at this
  have hMne : slices.map Tensor.children ≠ [] := by
    cases slices with
    | nil => exact absurd rfl hne
    | cons x l => simp
  have hwidth : ((slices.map Tensor.children).headD []).length = a := by
    cases slices with
    | nil => exact absurd rfl hne
    | cons x l => simpa using (children_of_shapeIs (hsh x (by simp))).1
  have hrow : ∀ s0,
      ((slices.map Tensor.children).map (fun r => r.getD s0 default)).getD t
        default = cs.getD s0 default := by
    intro s0
    have h1 : ((slices.map Tensor.children).map
        (fun r => r.getD s0 default)).getD t default =
        ((slices.map Tensor.children).getD t []).getD s0 default :=
      getD_map (fun r : List Tensor => r.getD s0 default)
        (slices.map Tensor.children) t [] (by simpa using ht)
    have h2 : (slices.map Tensor.children).getD t [] =
        (slices.getD t default).children :=
      getD_map Tensor.children slices t default ht
    rw [h1, h2, hcs]
    rfl
  rw [timeColumn, hcs]
  show Tensor.node
      ((((transposeL (slices.map Tensor.children)).map Tensor.node).map
        fun r => r.children.getD t default)) = Tensor.node cs
  congr 1
  apply List.ext_getElem
  · rw [List.length_map, List.length_map, transposeL_length, hwidth, hcslen]
  · intro i h1 h2
    have hi : i < a := by rwa [hcslen] at h2
    simp only [List.getElem_map, Tensor.children]
    rw [transposeL_getElem _ i
      (by rw [transposeL_length, hwidth]; exact hi)]
    rw [hrow i, List.getD_eq_getElem?_getD, List.getElem?_eq_getElem h2]
    rfl

theorem normalizeMask_ok_cases {nd : Nat} {m m1 : Tensor}
    (h : normalizeMask nd m = .ok m1) :
    m1 = expandDimsLast m ∨ m1 = m := by
  simp only [normalizeMask] at h
  by_cases hc : m.ndim = nd - 1
  · rw [if_pos hc] at h
    by_cases h2 : (expandDimsLast m).ndim = nd
    · rw [if_pos h2] at h
      exact Or.inl (Except.ok.inj h).symm
    · rw [if_neg h2] at h
      simp at h
  · rw [if_neg hc] at h
    by_cases h2 : m.ndim = nd
    · rw [if_pos h2] at h
      exact Or.inr (Except.ok.inj h).symm
    · rw [if_neg h2] at h
      simp at h

/-- Freeze at one loop position: when the mask slice consumed at
position `t > 0` is everywhere zero, the masked scan records at `t`
exactly what it recorded at `t - 1` (both output and carried states). -/
theorem scanMaskedAux_freeze (stepf : StepFun) (xs ms : List Tensor)
    (o : Tensor) (sts : List Tensor) {oS msl : List Nat}
    {stS : List (List Nat)} (t : Nat)
    (hstep : StepOk stepf xs oS stS)
    (hms : ∀ mm ∈ ms, shapeIs mm msl = true)
    (hb1 : bcastOk msl oS = true)
    (hb2 : ∀ st ∈ stS, bcastOk msl st = true)
    (ho : shapeIs o oS = true) (hsts : shapesAre sts stS = true)
    (ht0 : 0 < t) (ht : t < (scanMaskedAux stepf xs ms o sts).length)
    (hz : leavesAll (fun v => v == 0) (ms.getD t default) = true) :
    (scanMaskedAux stepf xs ms o sts).getD t default =
      (scanMaskedAux stepf xs ms o sts).getD (t - 1) default := by
  cases t with
  | zero => omega
  | succ k =>
      have hlen := scanMaskedAux_length stepf xs ms o sts
      have hxb : k + 1 < xs.length := by omega
      have hmb : k + 1 < ms.length := by omega
      have hprev := scanMaskedAux_shapes stepf xs ms o sts hstep hms hb1 hb2
        ho hsts k (by omega)
      have hcand := hstep (xs.getD (k + 1) default) (getD_mem default hxb)
        _ hprev.2
      rw [scanMaskedAux_getD_succ stepf xs ms o sts k ht]
      rw [maskedStep_allZero (by simpa using hz)
        (hms _ (getD_mem default hmb)) hb1 hb2 hprev.1 hprev.2 hcand]
      rfl

/-! ## Claim theorems -/

/-- C1: in every masked run of `rnn`, at every loop position `t > 0`
whose (normalized, loop-order) mask slice is everywhere zero, the loop
records at `t` exactly the output and carried state list it recorded at
`t - 1`, element for element, and correspondingly the emitted batch-major
outputs tensor has identical time slices at loop indices `t` and `t - 1`:
masking freezes via the elementwise conditional select `T.switch`
(with the mask broadcast across feature axes); it never zeroes the
output or the states. -/
theorem C1_mask_freeze (stepf : StepFun) (inputs mask0 mask1 : Tensor)
    (sts : List Tensor) (gb : Bool) (res : RnnResult)
    (S T : Nat) (fs msl fo : List Nat) (stS : List (List Nat)) (t : Nat)
    (hin : shapeIs inputs (S :: T :: fs) = true)
    (hpos : ∀ d ∈ S :: T :: fs, 0 < d) (hfs : fs ≠ []) (hT : 0 < T)
    (hnm : normalizeMask inputs.ndim mask0 = .ok mask1)
    (hm1 : shapeIs mask1 (S :: T :: msl) = true)
    (hstep : StepOk stepf (transpose01 inputs).children (S :: fo) stS)
    (hb1 : bcastOk (S :: msl) (S :: fo) = true)
    (hb2 : ∀ st ∈ stS, bcastOk (S :: msl) st = true)
    (hsts : shapesAre sts stS = true)
    (hok : rnn stepf inputs sts gb (some mask0) = .ok res)
    (ht0 : 0 < t) (ht : t < T)
    (hz : leavesAll (fun v => v == 0)
      ((if gb then (transpose01 mask1).children.reverse
        else (transpose01 mask1).children).getD t default) = true) :
    (rnnMaskedResults stepf inputs mask1 sts gb).getD t default =
      (rnnMaskedResults stepf inputs mask1 sts gb).getD (t - 1) default ∧
    timeColumn t res.outputs = timeColumn (t - 1) res.outputs := by
  obtain ⟨hrun, hlen, hinv⟩ := rnn_masked_results stepf inputs mask0 mask1
    sts gb hin hpos hfs hT hnm hm1 hstep hb1 hb2 hsts
  have hstepL : StepOk stepf
      (if gb then (transpose01 inputs).children.reverse
       else (transpose01 inputs).children) (S :: fo) stS :=
    fun x hx => hstep x (mem_of_mem_loopOrder hx)
  have hmslL : ∀ sl ∈ (if gb then (transpose01 mask1).children.reverse
      else (transpose01 mask1).children), shapeIs sl (S :: msl) = true :=
    fun sl hsl => (transpose01_children hm1 (hpos S (by simp))).2 sl
      (mem_of_mem_loopOrder hsl)
  have hxsne : (transpose01 inputs).children ≠ [] := by
    have hl := (transpose01_children hin (hpos S (by simp))).1
    intro h
    rw [h] at hl
    simp at hl
    omega
  have hseed : shapeIs (tzeroLike (stepf
      ((transpose01 inputs).children.headD default) sts).1)
      (S :: fo) = true := by
    rw [shapeIs_tzeroLike]
    exact (hstep _ (headD_mem default hxsne) sts hsts).1
  have hfreeze : (rnnMaskedResults stepf inputs mask1 sts gb).getD t default =
      (rnnMaskedResults stepf inputs mask1 sts gb).getD (t - 1) default := by
    simp only [rnnMaskedResults]
    refine scanMaskedAux_freeze stepf _ _ _ sts t hstepL hmslL hb1 hb2 hseed
      hsts ht0 ?_ hz
    have hl := hlen
    simp only [rnnMaskedResults] at hl
    omega
  refine ⟨hfreeze, ?_⟩
  rw [hrun] at hok
  have hres : res = assemble (scanReturn (stackResults sts.length
      (rnnMaskedResults stepf inputs mask1 sts gb))) :=
    (Except.ok.inj hok).symm
  subst hres
  have hne : rnnMaskedResults stepf inputs mask1 sts gb ≠ [] := by
    intro h
    rw [h] at hlen
    simp at hlen
    omega
  rw [assemble_stack sts.length _ hne]
  show timeColumn t (transpose01 (.node ((rnnMaskedResults stepf inputs mask1
      sts gb).map Prod.fst))) =
    timeColumn (t - 1) (transpose01 (.node ((rnnMaskedResults stepf inputs
      mask1 sts gb).map Prod.fst)))
  have hshapes : ∀ sl ∈ (rnnMaskedResults stepf inputs mask1 sts gb).map
      Prod.fst, shapeIs sl (S :: fo) = true := by
    intro sl hsl
    rcases List.mem_map.mp hsl with ⟨r, hr, rfl⟩
    exact (hinv r hr).1
  have hbt : t < ((rnnMaskedResults stepf inputs mask1 sts gb).map
      Prod.fst).length := by
    rw [List.length_map, hlen]
    exact ht
  have hbt1 : t - 1 < ((rnnMaskedResults stepf inputs mask1 sts gb).map
      Prod.fst).length := by
    rw [List.length_map, hlen]
    omega
  rw [timeColumn_transpose01 hbt hshapes, timeColumn_transpose01 hbt1 hshapes]
  have e1 : ((rnnMaskedResults stepf inputs mask1 sts gb).map
      Prod.fst).getD t default =
      ((rnnMaskedResults stepf inputs mask1 sts gb).getD t default).1 :=
    getD_map Prod.fst _ t default (by rw [hlen]; exact ht)
  have e2 : ((rnnMaskedResults stepf inputs mask1 sts gb).map
      Prod.fst).getD (t - 1) default =
      ((rnnMaskedResults stepf inputs mask1 sts gb).getD (t - 1) default).1 :=
    getD_map Prod.fst _ (t - 1) default (by rw [hlen]; omega)
  rw [e1, e2]
  exact congrArg Prod.fst hfreeze

/-- C2: running `rnn` with an everywhere-one mask returns exactly the
same value — the same `last_output`, the same `outputs` tensor at every
time index, and the same `final_states` — as running `rnn` with
`mask = None` on the identical arguments, for every direction flag. -/
theorem C2_mask_identity (stepf : StepFun) (inputs mask0 mask1 : Tensor)
    (sts : List Tensor) (gb : Bool)
    (S T : Nat) (fs msl oS : List Nat) (stS : List (List Nat))
    (hin : shapeIs inputs (S :: T :: fs) = true)
    (hpos : ∀ d ∈ S :: T :: fs, 0 < d) (hfs : fs ≠ []) (hT : 0 < T)
    (hnm : normalizeMask inputs.ndim mask0 = .ok mask1)
    (hm1 : shapeIs mask1 (S :: T :: msl) = true)
    (hone : leavesAll (fun v => v == 1) mask0 = true)
    (hstep : StepOk stepf (transpose01 inputs).children oS stS)
    (hb1 : bcastOk (S :: msl) oS = true)
    (hb2 : ∀ st ∈ stS, bcastOk (S :: msl) st = true)
    (hsts : shapesAre sts stS = true) :
    rnn stepf inputs sts gb (some mask0) = rnn stepf inputs sts gb none := by
  have hone1 : leavesAll (fun v => v == 1) mask1 = true := by
    rcases normalizeMask_ok_cases hnm with rfl | rfl
    · rwa [leavesAll_expandDimsLast]
    · exact hone
  have h3 : 3 ≤ inputs.ndim := by
    rw [ndim_of_shapeIs hin hpos]
    have := List.length_pos.mpr hfs
    simp only [List.length_cons]
    omega
  have hxslen : (transpose01 inputs).children.length = T :=
    (transpose01_children hin (hpos S (by simp))).1
  have hmslen : (transpose01 mask1).children.length = T :=
    (transpose01_children hm1 (hpos S (by simp))).1
  have harity_le : ∀ x ∈ (transpose01 inputs).children,
      sts.length ≤ ((stepf x sts).2).length := fun x hx =>
    le_of_eq (by rw [shapesAre_length (hstep x hx sts hsts).2,
      shapesAre_length hsts])
  have harity_eq : ∀ x ∈ (transpose01 inputs).children,
      ((stepf x sts).2).length = sts.length := fun x hx => by
    rw [shapesAre_length (hstep x hx sts hsts).2, shapesAre_length hsts]
  have hstepL : StepOk stepf
      (if gb then (transpose01 inputs).children.reverse
       else (transpose01 inputs).children) oS stS :=
    fun x hx => hstep x (mem_of_mem_loopOrder hx)
  have hmslL : ∀ sl ∈ (if gb then (transpose01 mask1).children.reverse
      else (transpose01 mask1).children), shapeIs sl (S :: msl) = true :=
    fun sl hsl => (transpose01_children hm1 (hpos S (by simp))).2 sl
      (mem_of_mem_loopOrder hsl)
  have honesL : ∀ sl ∈ (if gb then (transpose01 mask1).children.reverse
      else (transpose01 mask1).children),
      leavesAll (fun v => v == 1) sl = true :=
    fun sl hsl => leavesAll_transpose01_children hm1 hone1 sl
      (mem_of_mem_loopOrder hsl)
  have hxsne : (transpose01 inputs).children ≠ [] := by
    intro h
    rw [h] at hxslen
    simp at hxslen
    omega
  have hseed : shapeIs (tzeroLike (stepf
      ((transpose01 inputs).children.headD default) sts).1) oS = true := by
    rw [shapeIs_tzeroLike]
    exact (hstep _ (headD_mem default hxsne) sts hsts).1
  have hlenle : (if gb then (transpose01 inputs).children.reverse
      else (transpose01 inputs).children).length ≤
      (if gb then (transpose01 mask1).children.reverse
       else (transpose01 mask1).children).length := by
    cases gb <;> simp [hxslen, hmslen]
  rw [rnn_masked_run stepf inputs mask0 mask1 sts gb h3 hnm harity_le,
    rnn_unmasked_run stepf inputs sts gb h3 harity_eq,
    scanMaskedAux_allOnes stepf _ _ _ sts hstepL hmslL honesL hb1 hb2 hseed
      hsts hlenle]

/-- C3: `go_backwards=True` reverses only the traversal order, not the
emitted index order: for any state-pass-through step function, the
loop-order output stack of a backward run is the reverse of the forward
run's, and concretely, `rnn` on input `[[1],[2],[3]]` with the identity
step function and `go_backwards=True` emits loop-order outputs
`[[3],[2],[1]]` with `last_output = [1]`. -/
theorem C3_direction :
    (∀ (stepf : StepFun) (xs sts : List Tensor),
        (∀ x ss, (stepf x ss).2 = ss) →
        ((scanUnmaskedAux stepf xs sts).map Prod.fst).reverse =
          (scanUnmaskedAux stepf xs.reverse sts).map Prod.fst) ∧
      rnn idStepFun input123 [] true none =
        .ok ⟨.node [.node [.scalar 1]],
          .node [.node [.node [.scalar 3], .node [.scalar 2],
            .node [.scalar 1]]], []⟩ := by
  constructor
  · intro stepf xs sts hpass
    rw [scanUnmaskedAux_passthrough stepf xs sts (fun x _ => hpass x sts),
      scanUnmaskedAux_passthrough stepf xs.reverse sts
        (fun x _ => hpass x sts),
      List.map_map, List.map_map, List.map_reverse]
  · rfl

/-- C4: for every completed run of `rnn` — masked or not, forward or
backward — the returned `last_output` equals the slice of the returned
batch-major `outputs` tensor at the final loop-order time index
(`outputs[:, -1, ...]`). -/
theorem C4_last_output (stepf : StepFun) (inputs : Tensor)
    (sts : List Tensor) (gb : Bool) (mask : Option Tensor) (res : RnnResult)
    (S T : Nat) (fs fo msl : List Nat) (stS : List (List Nat))
    (hin : shapeIs inputs (S :: T :: fs) = true)
    (hpos : ∀ d ∈ S :: T :: fs, 0 < d) (hfs : fs ≠ []) (hT : 0 < T)
    (hstep : StepOk stepf (transpose01 inputs).children (S :: fo) stS)
    (hsts : shapesAre sts stS = true)
    (hmask : mask = none ∨ ∃ m0 m1, mask = some m0 ∧
      normalizeMask inputs.ndim m0 = .ok m1 ∧
      shapeIs m1 (S :: T :: msl) = true ∧
      bcastOk (S :: msl) (S :: fo) = true ∧
      ∀ st ∈ stS, bcastOk (S :: msl) st = true)
    (hok : rnn stepf inputs sts gb mask = .ok res) :
    res.last_output = lastColumn res.outputs := by
  rcases hmask with rfl | ⟨m0, m1, rfl, hnm, hm1, hb1, hb2⟩
  · obtain ⟨hrun, hlen, hinv⟩ := rnn_unmasked_results stepf inputs sts gb
      hin hpos hfs hstep hsts
    rw [hrun] at hok
    have hres : res = assemble (scanReturn (stackResults sts.length
        (rnnUnmaskedResults stepf inputs sts gb))) := (Except.ok.inj hok).symm
    subst hres
    have hne : rnnUnmaskedResults stepf inputs sts gb ≠ [] := by
      intro h
      rw [h] at hlen
      simp at hlen
      omega
    exact (assemble_lastColumn sts.length _ hne
      (fun r hr => (hinv r hr).1)).symm
  · obtain ⟨hrun, hlen, hinv⟩ := rnn_masked_results stepf inputs m0 m1 sts gb
      hin hpos hfs hT hnm hm1 hstep hb1 hb2 hsts
    rw [hrun] at hok
    have hres : res = assemble (scanReturn (stackResults sts.length
        (rnnMaskedResults stepf inputs m1 sts gb))) := (Except.ok.inj hok).symm
    subst hres
    have hne : rnnMaskedResults stepf inputs m1 sts gb ≠ [] := by
      intro h
      rw [h] at hlen
      simp at hlen
      omega
    exact (assemble_lastColumn sts.length _ hne
      (fun r hr => (hinv r hr).1)).symm

/-- C5: for every completed run of `rnn` — masked or not, forward or
backward — the returned `outputs` tensor has shape
`(samples, time, *feature shape of the step output)`, and the returned
`final_states` list has the length and the per-index shapes of
`initial_states`. -/
theorem C5_shape_preservation (stepf : StepFun) (inputs : Tensor)
    (sts : List Tensor) (gb : Bool) (mask : Option Tensor) (res : RnnResult)
    (S T : Nat) (fs fo msl : List Nat) (stS : List (List Nat))
    (hin : shapeIs inputs (S :: T :: fs) = true)
    (hpos : ∀ d ∈ S :: T :: fs, 0 < d) (hfs : fs ≠ []) (hT : 0 < T)
    (hstep : StepOk stepf (transpose01 inputs).children (S :: fo) stS)
    (hsts : shapesAre sts stS = true)
    (hmask : mask = none ∨ ∃ m0 m1, mask = some m0 ∧
      normalizeMask inputs.ndim m0 = .ok m1 ∧
      shapeIs m1 (S :: T :: msl) = true ∧
      bcastOk (S :: msl) (S :: fo) = true ∧
      ∀ st ∈ stS, bcastOk (S :: msl) st = true)
    (hok : rnn stepf inputs sts gb mask = .ok res) :
    shapeIs res.outputs (S :: T :: fo) = true ∧
    shapesAre res.states stS = true ∧
    res.states.length = sts.length := by
  have hsl : sts.length = stS.length := shapesAre_length hsts
  rcases hmask with rfl | ⟨m0, m1, rfl, hnm, hm1, hb1, hb2⟩
  · obtain ⟨hrun, hlen, hinv⟩ := rnn_unmasked_results stepf inputs sts gb
      hin hpos hfs hstep hsts
    rw [hrun] at hok
    have hres : res = assemble (scanReturn (stackResults sts.length
        (rnnUnmaskedResults stepf inputs sts gb))) := (Except.ok.inj hok).symm
    subst hres
    rw [hsl]
    have h := assemble_shapes (rnnUnmaskedResults stepf inputs sts gb)
      hlen hT (fun r hr => hinv r hr)
    have hne : rnnUnmaskedResults stepf inputs sts gb ≠ [] := by
      intro hh
      rw [hh] at hlen
      simp at hlen
      omega
    have hlast := hinv _ (getLastD_mem default hne)
    refine ⟨h.1, ?_, ?_⟩
    · rw [h.2]
      exact hlast.2
    · rw [h.2, shapesAre_length hlast.2]
  · obtain ⟨hrun, hlen, hinv⟩ := rnn_masked_results stepf inputs m0 m1 sts gb
      hin hpos hfs hT hnm hm1 hstep hb1 hb2 hsts
    rw [hrun] at hok
    have hres : res = assemble (scanReturn (stackResults sts.length
        (rnnMaskedResults stepf inputs m1 sts gb))) := (Except.ok.inj hok).symm
    subst hres
    rw [hsl]
    have h := assemble_shapes (rnnMaskedResults stepf inputs m1 sts gb)
      hlen hT (fun r hr => hinv r hr)
    have hne : rnnMaskedResults stepf inputs m1 sts gb ≠ [] := by
      intro hh
      rw [hh] at hlen
      simp at hlen
      omega
    have hlast := hinv _ (getLastD_mem default hne)
    refine ⟨h.1, ?_, ?_⟩
    · rw [h.2]
      exact hlast.2
    · rw [h.2, shapesAre_length hlast.2]

/-- C6: in masked mode, the seed output `rnn` computes before the loop —
by invoking the step function on the first time slice with the initial
states and multiplying the result by zero — is the everywhere-zero
tensor of the step output's shape; it is the retained-output carry
(`output_tm1`) for step 0, and at every loop position preceding the
first unmasked timestep the emitted output time slice is exactly this
zero tensor. -/
theorem C6_zero_seed (stepf : StepFun) (inputs mask0 mask1 : Tensor)
    (sts : List Tensor) (gb : Bool) (res : RnnResult)
    (S T : Nat) (fs msl fo : List Nat) (stS : List (List Nat)) (k : Nat)
    (hin : shapeIs inputs (S :: T :: fs) = true)
    (hpos : ∀ d ∈ S :: T :: fs, 0 < d) (hfs : fs ≠ []) (hT : 0 < T)
    (hnm : normalizeMask inputs.ndim mask0 = .ok mask1)
    (hm1 : shapeIs mask1 (S :: T :: msl) = true)
    (hstep : StepOk stepf (transpose01 inputs).children (S :: fo) stS)
    (hb1 : bcastOk (S :: msl) (S :: fo) = true)
    (hb2 : ∀ st ∈ stS, bcastOk (S :: msl) st = true)
    (hsts : shapesAre sts stS = true)
    (hok : rnn stepf inputs sts gb (some mask0) = .ok res)
    (hk : k ≤ T)
    (hz : ∀ j, j < k → leavesAll (fun v => v == 0)
      ((if gb then (transpose01 mask1).children.reverse
        else (transpose01 mask1).children).getD j default) = true) :
    leavesAll (fun v => v == 0) (tzeroLike (stepf
      ((transpose01 inputs).children.headD default) sts).1) = true ∧
    shapeIs (tzeroLike (stepf
      ((transpose01 inputs).children.headD default) sts).1)
      (S :: fo) = true ∧
    ∀ t, t < k → timeColumn t res.outputs =
      tzeroLike (stepf ((transpose01 inputs).children.headD default) sts).1 := by
  obtain ⟨hrun, hlen, hinv⟩ := rnn_masked_results stepf inputs mask0 mask1
    sts gb hin hpos hfs hT hnm hm1 hstep hb1 hb2 hsts
  have hstepL : StepOk stepf
      (if gb then (transpose01 inputs).children.reverse
       else (transpose01 inputs).children) (S :: fo) stS :=
    fun x hx => hstep x (mem_of_mem_loopOrder hx)
  have hmslL : ∀ sl ∈ (if gb then (transpose01 mask1).children.reverse
      else (transpose01 mask1).children), shapeIs sl (S :: msl) = true :=
    fun sl hsl => (transpose01_children hm1 (hpos S (by simp))).2 sl
      (mem_of_mem_loopOrder hsl)
  have hxsne : (transpose01 inputs).children ≠ [] := by
    have hl := (transpose01_children hin (hpos S (by simp))).1
    intro h
    rw [h] at hl
    simp at hl
    omega
  have hseed : shapeIs (tzeroLike (stepf
      ((transpose01 inputs).children.headD default) sts).1)
      (S :: fo) = true := by
    rw [shapeIs_tzeroLike]
    exact (hstep _ (headD_mem default hxsne) sts hsts).1
  refine ⟨leavesAll_tzeroLike _, hseed, ?_⟩
  intro t ht
  have hfrozen : (rnnMaskedResults stepf inputs mask1 sts gb).getD t default =
      (tzeroLike (stepf ((transpose01 inputs).children.headD default) sts).1,
        sts) := by
    simp only [rnnMaskedResults]
    refine scanMaskedAux_zero_prefix stepf _ _ _ sts hstepL hmslL hb1 hb2
      hseed hsts t ?_ (fun j hj => hz j (by omega))
    have hl := hlen
    simp only [rnnMaskedResults] at hl
    omega
  rw [hrun] at hok
  have hres : res = assemble (scanReturn (stackResults sts.length
      (rnnMaskedResults stepf inputs mask1 sts gb))) :=
    (Except.ok.inj hok).symm
  subst hres
  have hne : rnnMaskedResults stepf inputs mask1 sts gb ≠ [] := by
    intro h
    rw [h] at hlen
    simp at hlen
    omega
  rw [assemble_stack sts.length _ hne]
  show timeColumn t (transpose01 (.node ((rnnMaskedResults stepf inputs mask1
      sts gb).map Prod.fst))) = _
  have hshapes : ∀ sl ∈ (rnnMaskedResults stepf inputs mask1 sts gb).map
      Prod.fst, shapeIs sl (S :: fo) = true := by
    intro sl hsl
    rcases List.mem_map.mp hsl with ⟨r, hr, rfl⟩
    exact (hinv r hr).1
  have hbt : t < ((rnnMaskedResults stepf inputs mask1 sts gb).map
      Prod.fst).length := by
    rw [List.length_map, hlen]
    omega
  rw [timeColumn_transpose01 hbt hshapes]
  have e1 : ((rnnMaskedResults stepf inputs mask1 sts gb).map
      Prod.fst).getD t default =
      ((rnnMaskedResults stepf inputs mask1 sts gb).getD t default).1 :=
    getD_map Prod.fst _ t default (by rw [hlen]; omega)
  rw [e1, hfrozen]

/-- C7: an input tensor of rank < 3 (in particular rank 2) makes `rnn`
fail immediately with the `InvalidShape` error, before any timestep is
executed and regardless of step function, states, direction or mask; an
input of rank >= 3 passes this check — an unmasked run can then never
report `InvalidShape`. -/
theorem C7_rank_check (stepf : StepFun) (inputs : Tensor)
    (sts : List Tensor) (gb : Bool) :
    (∀ mask, inputs.ndim < 3 →
      rnn stepf inputs sts gb mask = .error .invalidShape) ∧
    (3 ≤ inputs.ndim → rnn stepf inputs sts gb none ≠ .error .invalidShape) :=
  ⟨fun mask h => rnn_lowrank stepf inputs sts gb mask h,
   fun h3 => rnn_unmasked_not_invalidShape stepf inputs sts gb h3⟩

/-- C8: mask rank normalization — a mask of rank `ndim - 1` gets a
trailing 1-sized axis inserted (so it broadcasts across feature
dimensions) and passes the rank assertion; a mask of rank `ndim` is used
as-is; a mask of any other rank makes `rnn` fail with `InvalidShape`
before the loop runs, regardless of the step function. -/
theorem C8_mask_rank (stepf : StepFun) (inputs mask0 : Tensor)
    (sts : List Tensor) (gb : Bool) (msh : List Nat)
    (hsh : shapeIs mask0 msh = true) (hpos : ∀ d ∈ msh, 0 < d)
    (h3 : 3 ≤ inputs.ndim) :
    (mask0.ndim = inputs.ndim - 1 →
      normalizeMask inputs.ndim mask0 = .ok (expandDimsLast mask0) ∧
      shapeIs (expandDimsLast mask0) (msh ++ [1]) = true) ∧
    (mask0.ndim = inputs.ndim →
      normalizeMask inputs.ndim mask0 = .ok mask0) ∧
    (mask0.ndim ≠ inputs.ndim - 1 → mask0.ndim ≠ inputs.ndim →
      rnn stepf inputs sts gb (some mask0) = .error .invalidShape) := by
  have hnd : mask0.ndim = msh.length := ndim_of_shapeIs hsh hpos
  have hexp : shapeIs (expandDimsLast mask0) (msh ++ [1]) = true :=
    shapeIs_expandDimsLast mask0 msh hsh
  have hexpnd : (expandDimsLast mask0).ndim = msh.length + 1 := by
    rw [ndim_of_shapeIs hexp]
    · simp
    · intro d hd
      rcases List.mem_append.mp hd with h | h
      · exact hpos d h
      · simp only [List.mem_singleton] at h
        omega
  refine ⟨?_, ?_, ?_⟩
  · intro hc
    refine ⟨?_, hexp⟩
    simp only [normalizeMask, if_pos hc]
    rw [if_pos (by omega)]
  · intro hc
    simp only [normalizeMask]
    rw [if_neg (show ¬ mask0.ndim = inputs.ndim - 1 by omega)]
    rw [if_pos hc]
  · intro h1 h2
    apply rnn_badmask stepf inputs mask0 sts gb h3
    simp only [normalizeMask]
    rw [if_neg h1, if_neg h2]

/-- C9 (amended): the scan validates the step function's return arity on
its first invocation.  In unmasked mode any state-list length mismatch
raises `InvalidArgument`; in masked mode a step function returning fewer
states than `initial_states` raises `InvalidArgument`, but a step
function returning more states passes the check — the excess states are
silently dropped by the `zip(states, new_states)` truncation and the run
completes. -/
theorem C9_arity_validation (stepf : StepFun) (x m o : Tensor)
    (xs ms sts : List Tensor) :
    (((stepf x sts).2).length ≠ sts.length →
      rnnUnmaskedScan stepf (x :: xs) sts = .error .invalidArgument) ∧
    (((stepf x sts).2).length < sts.length →
      rnnMaskedScan stepf (x :: xs) (m :: ms) o sts =
        .error .invalidArgument) ∧
    (sts.length ≤ ((stepf x sts).2).length →
      rnnMaskedScan stepf (x :: xs) (m :: ms) o sts =
        .ok (scanMaskedAux stepf (x :: xs) (m :: ms) o sts)) := by
  refine ⟨fun h => rnnUnmaskedScan_err stepf x xs sts h,
    fun h => rnnMaskedScan_err stepf x m o xs ms sts h, fun h => ?_⟩
  have hl : (maskedStep stepf x m o sts).2.length = sts.length := by
    simp only [maskedStep, List.length_zipWith]
    omega
  simp [rnnMaskedScan, hl]

/-- C9 counterexample: the claim that a state-list length mismatch
always raises `InvalidArgument` is false on the code.  With one initial
state and a step function returning two states, the masked run completes
with `.ok` — the extra state is silently dropped by the
`zip(states, new_states)` truncation in the masked `_step`. -/
theorem C9_counterexample :
    (extraStepFun (cellT 1) [cellT 0]).2.length = 2 ∧
    ([cellT 0] : List Tensor).length = 1 ∧
    rnn extraStepFun input12 [cellT 0] false (some mask11) =
      .ok ⟨cellT 2, .node [.node [.node [.scalar 1], .node [.scalar 2]]],
        [cellT 0]⟩ :=
  ⟨rfl, rfl, rfl⟩

/-- C10: a run whose `initial_states` list is empty still succeeds:
`final_states` is the empty list, while `last_output` and `outputs` are
assembled from the loop-order step outputs exactly as in the stateful
case — the bare-tensor (single `outputs_info`) return shape of the
underlying scan is normalized away. -/
theorem C10_empty_states (stepf : StepFun) (inputs : Tensor) (gb : Bool)
    (S T : Nat) (fs : List Nat)
    (hin : shapeIs inputs (S :: T :: fs) = true)
    (hpos : ∀ d ∈ S :: T :: fs, 0 < d) (hfs : fs ≠ []) (hT : 0 < T)
    (hstep : ∀ x ∈ (transpose01 inputs).children, (stepf x []).2 = []) :
    rnn stepf inputs [] gb none =
      .ok ⟨((rnnUnmaskedResults stepf inputs [] gb).map Prod.fst).getLastD
          default,
        transpose01 (.node ((rnnUnmaskedResults stepf inputs [] gb).map
          Prod.fst)),
        []⟩ := by
  have h3 : 3 ≤ inputs.ndim := by
    rw [ndim_of_shapeIs hin hpos]
    have := List.length_pos.mpr hfs
    simp only [List.length_cons]
    omega
  have hxslen : (transpose01 inputs).children.length = T :=
    (transpose01_children hin (hpos S (by simp))).1
  have harity : ∀ x ∈ (transpose01 inputs).children,
      ((stepf x []).2).length = ([] : List Tensor).length := fun x hx => by
    rw [hstep x hx]
  have hlen : (rnnUnmaskedResults stepf inputs [] gb).length = T := by
    simp only [rnnUnmaskedResults]
    rw [scanUnmaskedAux_length]
    cases gb <;> simp [hxslen]
  have hne : rnnUnmaskedResults stepf inputs [] gb ≠ [] := by
    intro h
    rw [h] at hlen
    simp at hlen
    omega
  rw [rnn_unmasked_run stepf inputs [] gb h3 harity]
  show Except.ok (assemble (scanReturn (stackResults 0
    (rnnUnmaskedResults stepf inputs [] gb)))) = _
  rw [assemble_stack 0 _ hne,
    getLastD_map Prod.fst (rnnUnmaskedResults stepf inputs [] gb)
      default default hne]
  rfl

/-! ## Witness runs -/

/-- The identity step function satisfies the step contract on any slice
list whose slices have the output shape. -/
theorem idStepFun_stepOk (xs : List Tensor) (oS : List Nat)
    (stS : List (List Nat)) (h : ∀ x ∈ xs, shapeIs x oS = true) :
    StepOk idStepFun xs oS stS :=
  fun x hx _ss hss => ⟨h x hx, hss⟩

theorem C1_mask_freeze_witness :
    (rnnMaskedResults idStepFun input12 mask10x [cellT 0] false).getD 1
        default =
      (rnnMaskedResults idStepFun input12 mask10x [cellT 0] false).getD 0
        default ∧
    timeColumn 1 (Tensor.node [.node [.node [.scalar 1],
        .node [.scalar 1]]]) =
      timeColumn 0 (Tensor.node [.node [.node [.scalar 1],
        .node [.scalar 1]]]) :=
  C1_mask_freeze idStepFun input12 mask10 mask10x [cellT 0] false
    ⟨cellT 1, .node [.node [.node [.scalar 1], .node [.scalar 1]]],
      [cellT 0]⟩
    1 2 [1] [1] [1] [[1, 1]] 1
    (by decide) (by decide) (by decide) (by decide) rfl (by decide)
    (idStepFun_stepOk _ _ _ (by decide)) (by decide) (by decide) (by decide)
    rfl (by decide) (by decide) (by decide)

theorem C2_mask_identity_witness :
    rnn idStepFun input12 [cellT 0] false (some mask11) =
      rnn idStepFun input12 [cellT 0] false none :=
  C2_mask_identity idStepFun input12 mask11 mask11x [cellT 0] false
    1 2 [1] [1] [1, 1] [[1, 1]]
    (by decide) (by decide) (by decide) (by decide) rfl (by decide)
    (by decide)
    (idStepFun_stepOk _ _ _ (by decide)) (by decide) (by decide) (by decide)

theorem C3_direction_witness :
    ((scanUnmaskedAux idStepFun [cellT 1, cellT 2] []).map
        Prod.fst).reverse =
      (scanUnmaskedAux idStepFun ([cellT 1, cellT 2]).reverse []).map
        Prod.fst :=
  C3_direction.1 idStepFun [cellT 1, cellT 2] [] (fun _ _ => rfl)

theorem C4_last_output_witness :
    (RnnResult.mk (cellT 2)
        (.node [.node [.node [.scalar 1], .node [.scalar 2]]])
        [cellT 0]).last_output =
      lastColumn (RnnResult.mk (cellT 2)
        (.node [.node [.node [.scalar 1], .node [.scalar 2]]])
        [cellT 0]).outputs :=
  C4_last_output idStepFun input12 [cellT 0] false none
    ⟨cellT 2, .node [.node [.node [.scalar 1], .node [.scalar 2]]],
      [cellT 0]⟩
    1 2 [1] [1] [1] [[1, 1]]
    (by decide) (by decide) (by decide) (by decide)
    (idStepFun_stepOk _ _ _ (by decide)) (by decide)
    (Or.inl rfl) rfl

theorem C5_shape_preservation_witness :
    shapeIs (RnnResult.mk (cellT 2)
        (.node [.node [.node [.scalar 1], .node [.scalar 2]]])
        [cellT 0]).outputs (1 :: 2 :: [1]) = true ∧
    shapesAre (RnnResult.mk (cellT 2)
        (.node [.node [.node [.scalar 1], .node [.scalar 2]]])
        [cellT 0]).states [[1, 1]] = true ∧
    (RnnResult.mk (cellT 2)
        (.node [.node [.node [.scalar 1], .node [.scalar 2]]])
        [cellT 0]).states.length = ([cellT 0] : List Tensor).length :=
  C5_shape_preservation idStepFun input12 [cellT 0] false none
    ⟨cellT 2, .node [.node [.node [.scalar 1], .node [.scalar 2]]],
      [cellT 0]⟩
    1 2 [1] [1] [1] [[1, 1]]
    (by decide) (by decide) (by decide) (by decide)
    (idStepFun_stepOk _ _ _ (by decide)) (by decide)
    (Or.inl rfl) rfl

theorem C6_zero_seed_witness :
    leavesAll (fun v => v == 0) (tzeroLike (idStepFun
      ((transpose01 input12).children.headD default) [cellT 0]).1) = true ∧
    shapeIs (tzeroLike (idStepFun
      ((transpose01 input12).children.headD default) [cellT 0]).1)
      (1 :: [1]) = true ∧
    ∀ t, t < 2 → timeColumn t (RnnResult.mk (cellT 0)
        (.node [.node [.node [.scalar 0], .node [.scalar 0]]])
        [cellT 0]).outputs =
      tzeroLike (idStepFun
        ((transpose01 input12).children.headD default) [cellT 0]).1 :=
  C6_zero_seed idStepFun input12 mask00 mask00x [cellT 0] false
    ⟨cellT 0, .node [.node [.node [.scalar 0], .node [.scalar 0]]],
      [cellT 0]⟩
    1 2 [1] [1] [1] [[1, 1]] 2
    (by decide) (by decide) (by decide) (by decide) rfl (by decide)
    (idStepFun_stepOk _ _ _ (by decide)) (by decide) (by decide) (by decide)
    rfl (by decide) (by decide)

theorem C7_rank_check_witness :
    rnn idStepFun input2d [] false none = .error .invalidShape ∧
    rnn idStepFun input123 [] false none ≠ .error .invalidShape :=
  ⟨(C7_rank_check idStepFun input2d [] false).1 none (by decide),
   (C7_rank_check idStepFun input123 [] false).2 (by decide)⟩

theorem C8_mask_rank_witness :
    (normalizeMask input12.ndim mask10 = .ok (expandDimsLast mask10) ∧
      shapeIs (expandDimsLast mask10) ([1, 2] ++ [1]) = true) ∧
    normalizeMask input12.ndim mask11x = .ok mask11x ∧
    rnn idStepFun input12 [] false (some maskR1) = .error .invalidShape :=
  ⟨(C8_mask_rank idStepFun input12 mask10 [] false [1, 2] (by decide)
      (by decide) (by decide)).1 (by decide),
   (C8_mask_rank idStepFun input12 mask11x [] false [1, 2, 1] (by decide)
      (by decide) (by decide)).2.1 (by decide),
   (C8_mask_rank idStepFun input12 maskR1 [] false [1] (by decide)
      (by decide) (by decide)).2.2 (by decide) (by decide)⟩

theorem C9_arity_validation_witness :
    rnnUnmaskedScan extraStepFun [cellT 1, cellT 2] [cellT 0] =
      .error .invalidArgument ∧
    rnnMaskedScan (fun x _ => (x, [])) [cellT 1, cellT 2]
      [cellT 1, cellT 1] (cellT 0) [cellT 0] = .error .invalidArgument ∧
    rnnMaskedScan extraStepFun [cellT 1, cellT 2] [cellT 1, cellT 1]
      (cellT 0) [cellT 0] =
      .ok (scanMaskedAux extraStepFun [cellT 1, cellT 2]
        [cellT 1, cellT 1] (cellT 0) [cellT 0]) :=
  ⟨(C9_arity_validation extraStepFun (cellT 1) (cellT 1) (cellT 0)
      [cellT 2] [cellT 1] [cellT 0]).1 (by decide),
   (C9_arity_validation (fun x _ => (x, [])) (cellT 1) (cellT 1) (cellT 0)
      [cellT 2] [cellT 1] [cellT 0]).2.1 (by decide),
   (C9_arity_validation extraStepFun (cellT 1) (cellT 1) (cellT 0)
      [cellT 2] [cellT 1] [cellT 0]).2.2 (by decide)⟩

theorem C10_empty_states_witness :
    rnn idStepFun input12 [] false none =
      .ok ⟨((rnnUnmaskedResults idStepFun input12 [] false).map
          Prod.fst).getLastD default,
        transpose01 (.node ((rnnUnmaskedResults idStepFun input12 []
          false).map Prod.fst)), []⟩ :=
  C10_empty_states idStepFun input12 false 1 2 [1] (by decide) (by decide)
    (by decide) (by decide) (fun _ _ => rfl)

end KerasRnn
